import Mathlib

/-!
# optimized-explorer: a verification development

A shallow embedding of the file-system explorer (`shared.cpp`, `fs_search.cpp`,
`fs_display.cpp`, `fs_cd.cpp`, `fs_manage.cpp`) and theorems about it.

* `std::string` is a list of characters (`Str`).
* `std::filesystem::path` is used on a POSIX host; a path is its string.
-/

set_option autoImplicit false

namespace Explorer

/-- A `std::string`: a finite sequence of characters. -/
abbrev Str := List Char

/-! ## `std::string` primitives -/

/-- The `std::string::find(needle)` member with start position 0: the lowest index
at which `needle` occurs in `hay`, `none` standing for `npos`. -/
def find : Str → Str → Option Nat
  | [], needle => if needle.isPrefixOf [] then some 0 else none
  | c :: t, needle =>
    if needle.isPrefixOf (c :: t) then some 0 else (find t needle).map (· + 1)

/-- The C function `::tolower` in the "C" locale (the program never calls `setlocale`):
`A`..`Z` go to `a`..`z`, every other character is unchanged. -/
def tolower (c : Char) : Char := c.toLower

/-! ## shared.cpp -/

/-- The constant `SYSTEM_SKIP_PATHS` of shared.cpp. -/
def SYSTEM_SKIP_PATHS : List Str :=
  ["$Recycle.Bin".toList,
   "System Volume Information".toList,
   "pagefile.sys".toList,
   "hiberfil.sys".toList,
   "swapfile.sys".toList]

/-- The loop of `shouldSkipPath` over a list of skip entries: return true at the first
entry found in `path`, false when the list is exhausted. -/
def shouldSkipLoop (path : Str) : List Str → Bool
  | [] => false
  | skipPath :: rest =>
    if (find path skipPath).isSome then true else shouldSkipLoop path rest

/-- The function `shouldSkipPath` of shared.cpp. -/
def shouldSkipPath (path : Str) : Bool :=
  shouldSkipLoop path SYSTEM_SKIP_PATHS

/-! ## fs_search.cpp: the matcher -/

/-- The function `matchesSearch` of fs_search.cpp: both strings are lowercased with
`std::transform(..., ::tolower)` and the name is searched for the term. -/
def matchesSearch (fileName searchTerm : Str) : Bool :=
  let lowerFileName := fileName.map tolower
  let lowerSearchTerm := searchTerm.map tolower
  (find lowerFileName lowerSearchTerm).isSome

/-! ## `std::filesystem::path` on a POSIX host

A path is kept as its string, as `path::string()` returns it. -/

/-- The member `path::is_absolute()` on POSIX: the path starts with the root directory. -/
def isAbsolute : Str → Bool
  | '/' :: _ => true
  | _ => false

/-- The member `path::has_filename()`: the path is not empty and does not end in a
separator. -/
def hasFilename (p : Str) : Bool :=
  match p.getLast? with
  | some c => c != '/'
  | none => false

/-- The path `operator/` ([fs.path.append]): an absolute right operand replaces the left
one; otherwise a separator is added when the left operand has a filename, and the right
operand is appended. -/
def pathAppend (p q : Str) : Str :=
  if isAbsolute q then q
  else if hasFilename p then p ++ '/' :: q
  else p ++ q

/-- The member `path::filename()`: what follows the last separator. -/
def filename (p : Str) : Str :=
  (p.reverse.takeWhile (· != '/')).reverse

/-- The member `path::has_relative_path()` on POSIX: some character is not a separator. -/
def hasRelativePath (p : Str) : Bool :=
  p.any (· != '/')

/-- The member `path::parent_path()`: the path itself when it has no relative path
(the root, the empty path); otherwise the path up to the end of its last but one element,
which is the root directory when only separators precede the last element. -/
def parentPath (p : Str) : Str :=
  if hasRelativePath p then
    let t := (p.reverse.dropWhile (· != '/')).reverse
    let u := (t.reverse.dropWhile (· == '/')).reverse
    if u.isEmpty && !t.isEmpty then ['/'] else u
  else p

/-- The function `std::filesystem::absolute` for a process whose current directory is
`processDir`. -/
def absolute (processDir p : Str) : Str :=
  if isAbsolute p then p else pathAppend processDir p

/-! ## The directory tree seen by a traversal

`Forest` is the content of a directory in enumeration order: each entry is a file or a
directory with its own content. A directory carries the flag `enumerable`: whether
constructing a `directory_iterator` on it succeeds. -/

/-- The entries of a directory, in the order `directory_iterator` yields them. -/
inductive Forest where
  | nil : Forest
  | file (name : Str) (rest : Forest) : Forest
  | dir (name : Str) (enumerable : Bool) (kids : Forest) (rest : Forest) : Forest
  deriving DecidableEq, Repr

/-- What a path names in the file system. -/
inductive Node where
  | file : Node
  | dir (enumerable : Bool) (kids : Forest) : Node
  deriving DecidableEq, Repr

/-- The result of `fs::status` on a path: nothing there, or a node. -/
abbrev Status := Option Node

/-- Whether an entry is a file or a directory (`fs::is_directory`). -/
inductive Kind where
  | file
  | directory
  deriving DecidableEq, Repr

/-- A directory entry met by a traversal: its path and kind. -/
structure Entry where
  path : Str
  kind : Kind
  deriving DecidableEq, Repr

namespace Forest

/-- The entries of a directory as a list of named nodes. -/
def entries : Forest → List (Str × Node)
  | nil => []
  | file name rest => (name, Node.file) :: entries rest
  | dir name en kids rest => (name, Node.dir en kids) :: entries rest

/-- The names of the entries of a directory. -/
def names : Forest → List Str
  | nil => []
  | file name rest => name :: names rest
  | dir name _ _ rest => name :: names rest

/-- The number of directories in a forest, at every depth. -/
def dirCount : Forest → Nat
  | nil => 0
  | file _ rest => dirCount rest
  | dir _ _ kids rest => 1 + dirCount kids + dirCount rest

/-- Every directory of the forest can be enumerated. -/
def allEnumerable : Forest → Bool
  | nil => true
  | file _ rest => allEnumerable rest
  | dir _ en kids rest => en && allEnumerable kids && allEnumerable rest

end Forest

/-- A file name as a directory holds it: not empty and without a separator. -/
def validName (n : Str) : Bool :=
  !n.isEmpty && !n.contains '/'

/-- The forest is a well-formed directory tree: every name is a valid file name and no two
entries of one directory share a name. -/
def Forest.wellFormed : Forest → Bool
  | .nil => true
  | .file name rest => validName name && !rest.names.contains name && wellFormed rest
  | .dir name _ kids rest =>
    validName name && !rest.names.contains name && wellFormed kids && wellFormed rest

/-- What `directory_iterator(dir, skip_permission_denied, errorCode)` ranges over: the
entries of the directory, or nothing when the iterator cannot be constructed. -/
def listing (enumerable : Bool) (kids : Forest) : Forest :=
  if enumerable then kids else Forest.nil

/-! ## fs_display.cpp and fs_search.cpp

The file system is passed explicitly: a pending directory on the stack carries, next to
its path, what the file system holds at that path. -/

/-- An element of `directoryStack`: the path pushed, and the directory found there. -/
structure Pending where
  path : Str
  enumerable : Bool
  kids : Forest
  deriving DecidableEq, Repr

/-- A line written by `fsDisplay` or `fsSearch`. -/
inductive Line where
  /-- stderr: "Error: The path '<directory>' does not exist." -/
  | errNotExist (directory : Str)
  /-- stderr: "Error: Search term cannot be empty" -/
  | errEmptyTerm
  /-- "Displaying contents of: <directory>" -/
  | displaying (directory : Str)
  /-- "Searching for '<term>' in: <directory>" -/
  | searching (term directory : Str)
  /-- "[FILE] <absolute path>", for a root that is not a directory -/
  | rootFile (absPath : Str)
  /-- "[DIR] <path>", the header of an expanded directory -/
  | dirHeader (path : Str)
  /-- "  [DIR] <name>" or "  [FILE] <name>", an entry of `fsDisplay` -/
  | item (kind : Kind) (name : Str)
  /-- "[DIR] <path>" or "[FILE] <path>", a match of `fsSearch` -/
  | matched (kind : Kind) (path : Str)
  /-- "Total items found: <n>" -/
  | total (n : Int)
  /-- "Found <n> matches for '<term>'" -/
  | found (n : Int) (term : Str)
  deriving DecidableEq, Repr

/-- The value an `int` of the source holds after an operation whose exact result is `x`:
32 bits, two's complement. Signed overflow is undefined in C++; the model takes the wrapped
value, which is what the usual targets compute. -/
def wrapInt (x : Int) : Int :=
  (x + 2147483648) % 4294967296 - 2147483648

/-- The state of a traversal loop: the lines written, the `int` counter (`itemCount` or
`matchCount`), `directoryStack` (top first), and the entries that passed the skip test,
in order (a trace, not in the source). -/
structure WalkState where
  out : List Line
  count : Int
  stack : List Pending
  visited : List Entry
  deriving DecidableEq, Repr

/-- The `for (const auto& entry : fs::directory_iterator(currentDir, ...))` loop of
`fsDisplay` over the remaining entries of `currentDir`. -/
def displayEntries (currentDir : Str) : Forest → WalkState → WalkState
  | .nil, st => st
  | .file name rest, st =>
    let entryPath := pathAppend currentDir name
    if shouldSkipPath entryPath then displayEntries currentDir rest st
    else
      displayEntries currentDir rest
        { st with
          out := st.out ++ [Line.item Kind.file (filename entryPath)]
          count := wrapInt (st.count + 1)
          visited := st.visited ++ [⟨entryPath, Kind.file⟩] }
  | .dir name en kids rest, st =>
    let entryPath := pathAppend currentDir name
    if shouldSkipPath entryPath then displayEntries currentDir rest st
    else
      displayEntries currentDir rest
        { out := st.out ++ [Line.item Kind.directory (filename entryPath)]
          count := wrapInt (st.count + 1)
          stack := ⟨entryPath, en, kids⟩ :: st.stack
          visited := st.visited ++ [⟨entryPath, Kind.directory⟩] }

/-- The `while (!directoryStack.empty())` loop of `fsDisplay`; `none` when the fuel runs
out before the stack is empty. -/
def displayLoop : Nat → WalkState → Option WalkState
  | 0, _ => none
  | fuel + 1, st =>
    match st.stack with
    | [] => some st
    | currentDir :: below =>
      if shouldSkipPath currentDir.path then
        displayLoop fuel { st with stack := below }
      else
        displayLoop fuel
          (displayEntries currentDir.path (listing currentDir.enumerable currentDir.kids)
            { st with
              out := st.out ++ [Line.dirHeader currentDir.path]
              stack := below })

/-- The function `fsDisplay`: `status` is what the file system holds at `directory`,
`processDir` the current directory of the process. The result is the final loop state. -/
def fsDisplay (fuel : Nat) (processDir directory : Str) (status : Status) :
    Option WalkState :=
  match status with
  | none => some ⟨[Line.errNotExist directory], 0, [], []⟩
  | some Node.file =>
    some ⟨[Line.displaying directory, Line.rootFile (absolute processDir directory)], 0, [], []⟩
  | some (Node.dir en kids) =>
    match displayLoop fuel ⟨[Line.displaying directory], 0, [⟨directory, en, kids⟩], []⟩ with
    | none => none
    | some st => some { st with out := st.out ++ [Line.total st.count] }

/-- The `for` loop of `fsSearch` over the remaining entries of `currentDir`. -/
def searchEntries (searchTerm currentDir : Str) : Forest → WalkState → WalkState
  | .nil, st => st
  | .file name rest, st =>
    let entryPath := pathAppend currentDir name
    if shouldSkipPath entryPath then searchEntries searchTerm currentDir rest st
    else
      let st1 : WalkState :=
        if matchesSearch (filename entryPath) searchTerm then
          { st with
            out := st.out ++ [Line.matched Kind.file entryPath]
            count := wrapInt (st.count + 1) }
        else st
      searchEntries searchTerm currentDir rest
        { st1 with visited := st1.visited ++ [⟨entryPath, Kind.file⟩] }
  | .dir name en kids rest, st =>
    let entryPath := pathAppend currentDir name
    if shouldSkipPath entryPath then searchEntries searchTerm currentDir rest st
    else
      let st1 : WalkState :=
        if matchesSearch (filename entryPath) searchTerm then
          { st with
            out := st.out ++ [Line.matched Kind.directory entryPath]
            count := wrapInt (st.count + 1) }
        else st
      searchEntries searchTerm currentDir rest
        { st1 with
          stack := ⟨entryPath, en, kids⟩ :: st1.stack
          visited := st1.visited ++ [⟨entryPath, Kind.directory⟩] }

/-- The `while (!directoryStack.empty())` loop of `fsSearch`. -/
def searchLoop (searchTerm : Str) : Nat → WalkState → Option WalkState
  | 0, _ => none
  | fuel + 1, st =>
    match st.stack with
    | [] => some st
    | currentDir :: below =>
      if shouldSkipPath currentDir.path then
        searchLoop searchTerm fuel { st with stack := below }
      else
        searchLoop searchTerm fuel
          (searchEntries searchTerm currentDir.path
            (listing currentDir.enumerable currentDir.kids) { st with stack := below })

/-- The function `fsSearch`: `searchTerm` is the line read from standard input. -/
def fsSearch (fuel : Nat) (processDir directory searchTerm : Str) (status : Status) :
    Option WalkState :=
  if searchTerm.isEmpty then some ⟨[Line.errEmptyTerm], 0, [], []⟩
  else
    match status with
    | none => some ⟨[Line.errNotExist directory], 0, [], []⟩
    | some Node.file =>
      if matchesSearch (filename directory) searchTerm then
        some ⟨[Line.searching searchTerm directory,
               Line.rootFile (absolute processDir directory)], 0, [], []⟩
      else some ⟨[Line.searching searchTerm directory], 0, [], []⟩
    | some (Node.dir en kids) =>
      match searchLoop searchTerm fuel
          ⟨[Line.searching searchTerm directory], 0, [⟨directory, en, kids⟩], []⟩ with
      | none => none
      | some st => some { st with out := st.out ++ [Line.found st.count searchTerm] }

/-! ## Reachability in a directory tree -/

/-- `Trail d kids t q`: in the directory at path `d` whose entries are `kids`, `q` is the
path of a proper descendant, and `t` lists the paths met on the way from `d` down to `q`,
both included. -/
inductive Trail : Str → Forest → List Str → Str → Prop
  | child {d : Str} {kids : Forest} {name : Str} {node : Node} :
      (name, node) ∈ kids.entries →
      Trail d kids [d, pathAppend d name] (pathAppend d name)
  | deeper {d : Str} {kids : Forest} {name : Str} {en : Bool} {sub : Forest}
      {t : List Str} {q : Str} :
      (name, Node.dir en sub) ∈ kids.entries →
      Trail (pathAppend d name) sub t q →
      Trail d kids (d :: t) q

/-- The fuel that empties a stack: one iteration for each pending directory and each
directory below it. -/
def fuelFor : List Pending → Nat
  | [] => 0
  | p :: rest => 1 + p.kids.dirCount + fuelFor rest

/-! ## The traversal in closed form

The entries a traversal meets, written by recursion on the tree; the loops are proved to
compute these lists. -/

/-- The kind of a node. -/
def Node.kind : Node → Kind
  | Node.file => Kind.file
  | Node.dir _ _ => Kind.directory

/-- The entries of one directory that pass the skip test, in enumeration order. -/
def scanEntries (d : Str) : Forest → List Entry
  | .nil => []
  | .file name rest =>
    if shouldSkipPath (pathAppend d name) then scanEntries d rest
    else ⟨pathAppend d name, Kind.file⟩ :: scanEntries d rest
  | .dir name _ _ rest =>
    if shouldSkipPath (pathAppend d name) then scanEntries d rest
    else ⟨pathAppend d name, Kind.directory⟩ :: scanEntries d rest

/-- The subdirectories of one directory that are pushed, in the order of the pushes. -/
def pushedDirs (d : Str) : Forest → List Pending
  | .nil => []
  | .file _ rest => pushedDirs d rest
  | .dir name en kids rest =>
    if shouldSkipPath (pathAppend d name) then pushedDirs d rest
    else ⟨pathAppend d name, en, kids⟩ :: pushedDirs d rest

/-- The entries met below the subdirectories of `d`, the last subdirectory first (it is
on top of the stack). -/
def below (d : Str) : Forest → List Entry
  | .nil => []
  | .file _ rest => below d rest
  | .dir name en kids rest =>
    below d rest ++
      (if shouldSkipPath (pathAppend d name) then []
       else if en then scanEntries (pathAppend d name) kids ++ below (pathAppend d name) kids
       else [])

/-- The entries met from the moment the directory `p` is popped until the stack is back
to what was under it. -/
def expand (p : Str) (en : Bool) (kids : Forest) : List Entry :=
  if shouldSkipPath p then []
  else if en then scanEntries p kids ++ below p kids
  else []

/-- The left operand of `operator/` with the separator the operator adds. -/
def base (p : Str) : Str :=
  if hasFilename p then p ++ ['/'] else p

/-- The `int` counter after `n` increments from the value `c`. -/
def countAfter : Nat → Int → Int
  | 0, c => c
  | n + 1, c => countAfter n (wrapInt (c + 1))

/-- The entries met while a stack is emptied. -/
def visitsOf : List Pending → List Entry
  | [] => []
  | p :: rest => expand p.path p.enumerable p.kids ++ visitsOf rest

/-! ## fs_cd.cpp and fs_manage.cpp

The session operations are written over the `std::filesystem` primitives they call; the
primitives are a parameter, and `Posix.fileSystem` below is a model of them. -/

/-- The `std::filesystem` calls made by the session operations, over a type `W` of file
system states. A call that changes the file system returns the new state. -/
structure FileSystem (W : Type) where
  /-- `fs::exists(p)` -/
  pathExists : W → Str → Bool
  /-- `fs::is_directory(p)` -/
  isDirectory : W → Str → Bool
  /-- `fs::canonical(p)`; `none` when it throws -/
  canonical : W → Str → Option Str
  /-- `fs::directory_iterator testAccess(p, ec)` leaves `ec` clear -/
  canEnumerate : W → Str → Bool
  /-- `fs::create_directories(p)`: the value returned, `none` when it throws -/
  createDirectories : W → Str → Option Bool × W
  /-- `std::ofstream file(p)`: whether the stream opened -/
  createFile : W → Str → Bool × W
  /-- `fs::remove_all(p, ec)`: the number of items removed, `none` when `ec` is set -/
  removeAll : W → Str → Option Nat × W
  /-- `fs::remove(p, ec)`: the value returned -/
  remove : W → Str → Bool × W
  /-- `fs::rename(from, to)`: false when it throws -/
  rename : W → Str → Str → Bool × W

/-- The environment variables read by `fsCd`. -/
structure Env where
  USERPROFILE : Option Str
  HOME : Option Str
  deriving DecidableEq, Repr

/-- The session: the file system and the static variable `currentWorkingDirectory`. -/
structure Session (W : Type) where
  world : W
  currentWorkingDirectory : Str
  deriving DecidableEq, Repr

/-- The error reported by an operation that returns false, named as in the error taxonomy;
the message of the source is quoted at each. -/
inductive Err where
  /-- "does not exist" -/
  | NotFound
  /-- "is not a directory" -/
  | NotADirectory
  /-- "already exists" -/
  | AlreadyExists
  /-- "Cannot access directory ...: Permission denied" -/
  | PermissionDenied
  /-- "Failed to create ..." / "Failed to delete ..." -/
  | IOError
  /-- "Cannot delete the current working directory" -/
  | RefusesToDeleteCurrentDirectory
  /-- "Cannot rename the current working directory" -/
  | RefusesToRenameCurrentDirectory
  /-- "Could not determine home directory" -/
  | NoHomeDirectory
  /-- the `catch (const std::exception& e)` handler: "Error ...: <what>" -/
  | Exception
  deriving DecidableEq, Repr

/-- What an operation returns: `ok` is `true`, `fail e` is `false` after the message of
`e` was written. -/
inductive Outcome where
  | ok
  | fail (e : Err)
  deriving DecidableEq, Repr

/-- The boolean returned. -/
def Outcome.toBool : Outcome → Bool
  | Outcome.ok => true
  | Outcome.fail _ => false

/-- The function `getCurrentDirectory` of fs_cd.cpp. -/
def getCurrentDirectory {W : Type} (s : Session W) : Str :=
  s.currentWorkingDirectory

/-- What the first block of `fsCd` decides: return at once (`.`), fail for want of a home
directory, or go on with the candidate `newPath`. -/
inductive CdTarget where
  | stay
  | noHome
  | candidate (newPath : Str)
  deriving DecidableEq, Repr

/-- The first block of `fsCd` ("Handle special directory symbols"). -/
def cdTarget (env : Env) (currentWorkingDirectory directory : Str) : CdTarget :=
  if directory = "..".toList then
    CdTarget.candidate (parentPath currentWorkingDirectory)
  else if directory = ".".toList then
    CdTarget.stay
  else if directory = "~".toList then
    match env.USERPROFILE with
    | some homeDir => CdTarget.candidate homeDir
    | none =>
      match env.HOME with
      | some homeDir => CdTarget.candidate homeDir
      | none => CdTarget.noHome
  else if isAbsolute directory then CdTarget.candidate directory
  else CdTarget.candidate (pathAppend currentWorkingDirectory directory)

/-- The function `fsCd` of fs_cd.cpp. -/
def fsCd {W : Type} (fsys : FileSystem W) (env : Env) (directory : Str) (s : Session W) :
    Outcome × Session W :=
  match cdTarget env s.currentWorkingDirectory directory with
  | CdTarget.stay => (Outcome.ok, s)
  | CdTarget.noHome => (Outcome.fail Err.NoHomeDirectory, s)
  | CdTarget.candidate newPath =>
    if !fsys.pathExists s.world newPath then (Outcome.fail Err.NotFound, s)
    else if !fsys.isDirectory s.world newPath then (Outcome.fail Err.NotADirectory, s)
    else
      match fsys.canonical s.world newPath with
      | none => (Outcome.fail Err.Exception, s)
      | some canonicalPath =>
        if !fsys.canEnumerate s.world canonicalPath then
          (Outcome.fail Err.PermissionDenied, s)
        else (Outcome.ok, { s with currentWorkingDirectory := canonicalPath })

/-- The block "Handle relative and absolute paths" of fs_manage.cpp. -/
def targetOf {W : Type} (s : Session W) (path : Str) : Str :=
  if isAbsolute path then path else pathAppend (getCurrentDirectory s) path

/-- The function `fsCreate` of fs_manage.cpp. -/
def fsCreate {W : Type} (fsys : FileSystem W) (path : Str) (isDirectory : Bool)
    (s : Session W) : Outcome × Session W :=
  let targetPath := targetOf s path
  if fsys.pathExists s.world targetPath then (Outcome.fail Err.AlreadyExists, s)
  else if isDirectory then
    match fsys.createDirectories s.world targetPath with
    | (none, w) => (Outcome.fail Err.Exception, { s with world := w })
    | (some false, w) => (Outcome.fail Err.IOError, { s with world := w })
    | (some true, w) => (Outcome.ok, { s with world := w })
  else
    let made : Option Bool × W :=
      if !(parentPath targetPath).isEmpty then
        fsys.createDirectories s.world (parentPath targetPath)
      else (some false, s.world)
    match made with
    | (none, w) => (Outcome.fail Err.Exception, { s with world := w })
    | (some _, w) =>
      match fsys.createFile w targetPath with
      | (false, w') => (Outcome.fail Err.IOError, { s with world := w' })
      | (true, w') => (Outcome.ok, { s with world := w' })

/-- The function `fsDelete` of fs_manage.cpp. Canonical paths have no redundant element,
so `==` on them is equality of strings. -/
def fsDelete {W : Type} (fsys : FileSystem W) (path : Str) (s : Session W) :
    Outcome × Session W :=
  let targetPath := targetOf s path
  if !fsys.pathExists s.world targetPath then (Outcome.fail Err.NotFound, s)
  else
    match fsys.canonical s.world targetPath with
    | none => (Outcome.fail Err.Exception, s)
    | some canonicalPath =>
      match fsys.canonical s.world (getCurrentDirectory s) with
      | none => (Outcome.fail Err.Exception, s)
      | some canonicalCwd =>
        if canonicalPath = canonicalCwd then
          (Outcome.fail Err.RefusesToDeleteCurrentDirectory, s)
        else if fsys.isDirectory s.world targetPath then
          match fsys.removeAll s.world targetPath with
          | (none, w) => (Outcome.fail Err.IOError, { s with world := w })
          | (some _, w) => (Outcome.ok, { s with world := w })
        else
          match fsys.remove s.world targetPath with
          | (false, w) => (Outcome.fail Err.IOError, { s with world := w })
          | (true, w) => (Outcome.ok, { s with world := w })

/-- The function `fsRename` of fs_manage.cpp. -/
def fsRename {W : Type} (fsys : FileSystem W) (oldPath newPath : Str) (s : Session W) :
    Outcome × Session W :=
  let oldTargetPath := targetOf s oldPath
  let newTargetPath := targetOf s newPath
  if !fsys.pathExists s.world oldTargetPath then (Outcome.fail Err.NotFound, s)
  else if fsys.pathExists s.world newTargetPath then (Outcome.fail Err.AlreadyExists, s)
  else
    match fsys.canonical s.world oldTargetPath with
    | none => (Outcome.fail Err.Exception, s)
    | some canonicalPath =>
      match fsys.canonical s.world (getCurrentDirectory s) with
      | none => (Outcome.fail Err.Exception, s)
      | some canonicalCwd =>
        if canonicalPath = canonicalCwd then
          (Outcome.fail Err.RefusesToRenameCurrentDirectory, s)
        else
          let made : Option Bool × W :=
            if !(parentPath newTargetPath).isEmpty then
              fsys.createDirectories s.world (parentPath newTargetPath)
            else (some false, s.world)
          match made with
          | (none, w) => (Outcome.fail Err.Exception, { s with world := w })
          | (some _, w) =>
            match fsys.rename w oldTargetPath newTargetPath with
            | (false, w') => (Outcome.fail Err.Exception, { s with world := w' })
            | (true, w') => (Outcome.ok, { s with world := w' })

/-- Running `fsCd` on each argument of a list in turn: the outcomes and the final
session. -/
def runCd {W : Type} (fsys : FileSystem W) (env : Env) : List Str → Session W →
    List Outcome × Session W
  | [], s => ([], s)
  | directory :: rest, s =>
    let r := fsCd fsys env directory s
    let rs := runCd fsys env rest r.2
    (r.1 :: rs.1, rs.2)

/-! ## A model of the `std::filesystem` primitives on a POSIX host

The state is a `World`: the content of the root directory, a `Forest`, and the directories
in which the process cannot create or remove an entry. There are no symbolic links; the
permission to read a directory is its flag `enumerable`. The current directory of the
process is the root, so a relative path is resolved from the root. -/

/-- A state of the file system: the content of the root directory, and the locations (the
names from the root) of the directories in which the process cannot create, remove or
rename an entry, for want of write or search permission on the directory. The list is by
location and no call changes it: a location that holds no directory tells what will hold
for a directory created there (the file mode creation mask of the process may deny the
process write permission on the directories it creates). -/
structure World where
  root : Forest
  unwritable : List (List Str)
  deriving DecidableEq, Repr

namespace Forest

/-- The first entry of a directory with the given name. -/
def find? (name : Str) : Forest → Option Node
  | nil => none
  | file n rest => if n = name then some Node.file else find? name rest
  | dir n en kids rest => if n = name then some (Node.dir en kids) else find? name rest

/-- A directory with one more entry, a file, at the end. -/
def addFile (name : Str) : Forest → Forest
  | nil => file name nil
  | file n rest => file n (addFile name rest)
  | dir n en kids rest => dir n en kids (addFile name rest)

/-- A directory with one more entry, a directory with content `content`, at the end. -/
def addDir (name : Str) (en : Bool) (content : Forest) : Forest → Forest
  | nil => dir name en content nil
  | file n rest => file n (addDir name en content rest)
  | dir n e kids rest => dir n e kids (addDir name en content rest)

/-- A directory with the node added under the given name. -/
def addNode (name : Str) : Node → Forest → Forest
  | Node.file, F => addFile name F
  | Node.dir en content, F => addDir name en content F

/-- A directory without its first entry of the given name. -/
def erase (name : Str) : Forest → Forest
  | nil => nil
  | file n rest => if n = name then rest else file n (erase name rest)
  | dir n en kids rest => if n = name then rest else dir n en kids (erase name rest)

/-- The number of entries of a forest, at every depth. -/
def size : Forest → Nat
  | nil => 0
  | file _ rest => 1 + size rest
  | dir _ _ kids rest => 1 + size kids + size rest

/-- The content of the directory reached by a list of names is replaced by `f` of it;
nothing changes when the names do not lead to a directory. -/
def modifyAt (f : Forest → Forest) : List Str → Forest → Forest
  | [], F => f F
  | _ :: _, nil => nil
  | n :: ns, file m rest =>
    if m = n then file m rest else file m (modifyAt f (n :: ns) rest)
  | n :: ns, dir m en kids rest =>
    if m = n then dir m en (modifyAt f ns kids) rest
    else dir m en kids (modifyAt f (n :: ns) rest)

end Forest

namespace Posix

/-- The node reached from `node` by a list of names. -/
def nodeAt : Node → List Str → Option Node
  | node, [] => some node
  | Node.file, _ :: _ => none
  | Node.dir _ kids, n :: ns =>
    match kids.find? n with
    | some child => nodeAt child ns
    | none => none

/-- The root directory of a state. -/
def rootNode (w : Forest) : Node := Node.dir true w

/-- The kind of what the names `loc` lead to from the root, if anything. -/
def kindAt (w : Forest) (loc : List Str) : Option Kind :=
  (nodeAt (rootNode w) loc).map Node.kind

/-- The elements of a path between its separators, empty ones included. -/
def splitPath : Str → List Str
  | [] => [[]]
  | c :: t =>
    if c = '/' then [] :: splitPath t
    else
      match splitPath t with
      | [] => [[c]]
      | seg :: segs => (c :: seg) :: segs

/-- Path resolution: from the location `cur` (names from the root), follow the elements
in turn. An element is looked up only in a directory; an empty element and `.` stay,
`..` goes up (the root is its own parent), a name goes down to an existing entry. -/
def walkFrom (w : Forest) : List Str → List Str → Option (List Str)
  | cur, [] => some cur
  | cur, seg :: segs =>
    if kindAt w cur = some Kind.directory then
      if seg = [] ∨ seg = ".".toList then walkFrom w cur segs
      else if seg = "..".toList then walkFrom w cur.dropLast segs
      else if (kindAt w (cur ++ [seg])).isSome then walkFrom w (cur ++ [seg]) segs
      else none
    else none

/-- The location a path names, `none` when the path does not resolve. -/
def resolve (w : Forest) (p : Str) : Option (List Str) :=
  if p.isEmpty then none else walkFrom w [] (splitPath p)

/-- The names of a location as a path below the root: `/a/b`. -/
def renderNames : List Str → Str
  | [] => []
  | n :: ns => '/' :: n ++ renderNames ns

/-- The canonical path of a location; the root is `/`. -/
def render (loc : List Str) : Str :=
  if loc.isEmpty then ['/'] else renderNames loc

/-- Model of `fs::exists`. -/
def pathExists (w : World) (p : Str) : Bool :=
  (resolve w.root p).isSome

/-- Model of `fs::is_directory`. -/
def isDirectory (w : World) (p : Str) : Bool :=
  match resolve w.root p with
  | some loc => kindAt w.root loc = some Kind.directory
  | none => false

/-- Model of `fs::canonical`: it throws when the path does not resolve. -/
def canonical (w : World) (p : Str) : Option Str :=
  (resolve w.root p).map render

/-- Model of the probe `fs::directory_iterator testAccess(p, ec)`. -/
def canEnumerate (w : World) (p : Str) : Bool :=
  match resolve w.root p with
  | some loc =>
    match nodeAt (rootNode w.root) loc with
    | some (Node.dir en _) => en
    | _ => false
  | none => false

/-- The loop of `fs::create_directories`: as `walkFrom`, but a name that is missing is
created as an empty directory. `created` tells whether a directory was created so far.
The call throws (`none`) when an element is looked up in something that is not a
directory, and when a directory is missing in a directory of `deny`, where the process
cannot create an entry; what was created before stays. -/
def mkdirsFrom (deny : List (List Str)) :
    Forest → List Str → List Str → Bool → Option Bool × Forest
  | w, cur, [], created =>
    if kindAt w cur = some Kind.directory then (some created, w) else (none, w)
  | w, cur, seg :: segs, created =>
    if kindAt w cur = some Kind.directory then
      if seg = [] ∨ seg = ".".toList then mkdirsFrom deny w cur segs created
      else if seg = "..".toList then mkdirsFrom deny w cur.dropLast segs created
      else if (kindAt w (cur ++ [seg])).isSome then
        mkdirsFrom deny w (cur ++ [seg]) segs created
      else if cur ∈ deny then (none, w)
      else
        mkdirsFrom deny (w.modifyAt (Forest.addDir seg true Forest.nil) cur) (cur ++ [seg])
          segs true
    else (none, w)

/-- Model of `fs::create_directories`. -/
def createDirectories (w : World) (p : Str) : Option Bool × World :=
  if p.isEmpty then (none, w)
  else
    let r := mkdirsFrom w.unwritable w.root [] (splitPath p) false
    (r.1, ⟨r.2, w.unwritable⟩)

/-- A name that can be given to a new entry. -/
def creatable (name : Str) : Bool :=
  !name.isEmpty && name != ".".toList && name != "..".toList

/-- Model of `std::ofstream file(p)`: the directory of `p` must resolve; a missing file is
created unless the directory is one where the process cannot create an entry, an existing
file is opened, a directory is not. -/
def createFile (w : World) (p : Str) : Bool × World :=
  if p.isEmpty then (false, w)
  else
    let segs := splitPath p
    match walkFrom w.root [] segs.dropLast, segs.getLast? with
    | some loc, some name =>
      if kindAt w.root loc = some Kind.directory && creatable name then
        match kindAt w.root (loc ++ [name]) with
        | none =>
          if loc ∈ w.unwritable then (false, w)
          else (true, ⟨w.root.modifyAt (Forest.addFile name) loc, w.unwritable⟩)
        | some Kind.file => (true, w)
        | some Kind.directory => (false, w)
      else (false, w)
    | _, _ => (false, w)

/-- Model of `fs::remove(p, ec)`: a file or an empty directory is removed; the root, a
directory that is not empty, an entry of a directory where the process cannot remove an
entry, and a path that does not resolve are not. -/
def remove (w : World) (p : Str) : Bool × World :=
  match resolve w.root p with
  | some loc =>
    if loc.dropLast ∈ w.unwritable then (false, w)
    else
      match loc.getLast?, nodeAt (rootNode w.root) loc with
      | some name, some Node.file =>
        (true, ⟨w.root.modifyAt (Forest.erase name) loc.dropLast, w.unwritable⟩)
      | some name, some (Node.dir _ Forest.nil) =>
        (true, ⟨w.root.modifyAt (Forest.erase name) loc.dropLast, w.unwritable⟩)
      | _, _ => (false, w)
  | none => (false, w)

/-- Whether the content `kids` of the directory at `loc` holds, at any depth, a directory
of `deny` that is not empty: its entries cannot be removed. -/
def holdsDenied (deny : List (List Str)) : List Str → Forest → Bool
  | _, Forest.nil => false
  | loc, Forest.file _ rest => holdsDenied deny loc rest
  | loc, Forest.dir name _ kids rest =>
    (kids != Forest.nil && decide (loc ++ [name] ∈ deny)) ||
      holdsDenied deny (loc ++ [name]) kids || holdsDenied deny loc rest

/-- Model of `fs::remove_all(p, ec)`: the node and all below it are removed and counted.
The call fails, and in this model changes nothing, on the root, on an entry of a directory
where the process cannot remove an entry, and on a tree holding a directory that cannot be
enumerated or whose entries cannot be removed; a path that does not resolve removes
nothing. -/
def removeAll (w : World) (p : Str) : Option Nat × World :=
  match resolve w.root p with
  | some loc =>
    if loc.dropLast ∈ w.unwritable then (none, w)
    else
      match loc.getLast?, nodeAt (rootNode w.root) loc with
      | some name, some Node.file =>
        (some 1, ⟨w.root.modifyAt (Forest.erase name) loc.dropLast, w.unwritable⟩)
      | some name, some (Node.dir en kids) =>
        if en && kids.allEnumerable && !(kids != Forest.nil && decide (loc ∈ w.unwritable))
            && !holdsDenied w.unwritable loc kids then
          (some (1 + kids.size),
            ⟨w.root.modifyAt (Forest.erase name) loc.dropLast, w.unwritable⟩)
        else (none, w)
      | _, _ => (none, w)
  | none => (some 0, w)

/-- Model of `fs::rename(from, to)`: `from` must resolve and not be the root, the
directory of `to` must resolve, and `to` must not lie in `from`. A destination that exists
is replaced when both are files or when it is an empty directory and `from` a directory.
The process must be able to remove an entry from the directory of `from` and to create one
in the directory of `to`, and to write to a directory that it moves to another
directory. -/
def rename (w : World) (src dst : Str) : Bool × World :=
  if dst.isEmpty then (false, w)
  else
    let segs := splitPath dst
    match resolve w.root src, walkFrom w.root [] segs.dropLast, segs.getLast? with
    | some from_, some loc, some name =>
      match from_.getLast?, nodeAt (rootNode w.root) from_ with
      | some old, some node =>
        if kindAt w.root loc = some Kind.directory && creatable name then
          if from_ = loc ++ [name] then (true, w)
          else if from_.isPrefixOf (loc ++ [name]) then (false, w)
          else if from_.dropLast ∈ w.unwritable ∨ loc ∈ w.unwritable ∨
              (node.kind = Kind.directory ∧ from_.dropLast ≠ loc ∧ from_ ∈ w.unwritable) then
            (false, w)
          else
            let replaceable : Bool :=
              match node, nodeAt (rootNode w.root) (loc ++ [name]) with
              | _, none => true
              | Node.file, some Node.file => true
              | Node.dir _ _, some (Node.dir _ Forest.nil) => true
              | _, _ => false
            if replaceable then
              (true, ⟨((w.root.modifyAt (Forest.erase name) loc).modifyAt (Forest.erase old)
                from_.dropLast).modifyAt (Forest.addNode name node) loc, w.unwritable⟩)
            else (false, w)
        else (false, w)
      | _, _ => (false, w)
    | _, _, _ => (false, w)

/-- Every node of `w` is a node of the same kind of `w'`. -/
def Extends (w w' : Forest) : Prop :=
  ∀ p k, kindAt w p = some k → kindAt w' p = some k

/-- The model as an instance of the primitives. -/
def fileSystem : FileSystem World where
  pathExists := pathExists
  isDirectory := isDirectory
  canonical := canonical
  canEnumerate := canEnumerate
  createDirectories := createDirectories
  createFile := createFile
  removeAll := removeAll
  remove := remove
  rename := rename

end Posix

/-- A sample state: `/home/u/a.txt`, `/home/u/docs`, `/home/locked` (which the process can
neither enumerate nor write to) and `/tmp`. -/
def sampleWorld : World :=
  ⟨.dir "home".toList true
    (.dir "u".toList true
      (.file "a.txt".toList (.dir "docs".toList true .nil .nil))
      (.dir "locked".toList false .nil .nil))
    (.dir "tmp".toList true .nil .nil),
   [["home".toList, "locked".toList]]⟩

/-- The sample state with `/home/u` made a directory the process can read but not write
to. -/
def readOnlyWorld : World :=
  ⟨sampleWorld.root, [["home".toList, "u".toList]]⟩

/-- The sample state for a process whose file mode creation mask denies it write permission
on a directory it creates at `/home/u/x`. -/
def maskedWorld : World :=
  ⟨sampleWorld.root, [["home".toList, "u".toList, "x".toList]]⟩

/-- A state where `/home/u/x` is a regular file. -/
def fileXWorld : World :=
  ⟨.dir "home".toList true (.dir "u".toList true (.file "x".toList .nil) .nil) .nil, []⟩

/-- A sample environment: `HOME=/home/u`. -/
def sampleEnv : Env := ⟨none, some "/home/u".toList⟩

/-! ## main.cpp

Standard input is a string of unread characters with the state bits of the stream; the
calls the command loop makes are recorded in order. -/

/-- The function `displayPrompt` of main.cpp, as the text it writes for the current
directory `currentDir` (the value of `getCurrentDirectory()`). The name `lastDir` is
computed and not used, as in the source. -/
def displayPrompt (currentDir : Str) : Str :=
  let _lastDir := filename currentDir
  if currentDir.length > 40 then
    let abbreviated := "...".toList ++ currentDir.drop (currentDir.length - 37)
    abbreviated ++ "> ".toList
  else currentDir ++ "> ".toList

/-- The stream `std::cin`: the characters not yet read, `eofbit` and `failbit`. -/
structure IStream where
  buf : Str
  eofbit : Bool
  failbit : Bool
  deriving DecidableEq, Repr

/-- The member `good()`: no state bit is set. -/
def IStream.good (s : IStream) : Bool :=
  !s.eofbit && !s.failbit

/-- The function `std::isspace` in the "C" locale. -/
def isSpace (c : Char) : Bool :=
  c == ' ' || c == '\n' || c == '\t' || c == '\r' || c == '\x0b' || c == '\x0c'

/-- The manipulator `std::ws`: on a stream that is not good it sets `failbit`; otherwise it
discards leading whitespace, newlines included, and sets `eofbit` when the input ends. -/
def ws (s : IStream) : IStream :=
  if !s.good then { s with failbit := true }
  else
    let rest := s.buf.dropWhile isSpace
    { s with buf := rest, eofbit := rest.isEmpty }

/-- The extraction `std::cin >> word`: leading whitespace is skipped and the characters up
to the next whitespace are read. When the stream is not good, or ends before a word, the
variable keeps its value `old` and `failbit` is set. -/
def readWord (s : IStream) (old : Str) : Str × IStream :=
  if !s.good then (old, { s with failbit := true })
  else
    let rest := s.buf.dropWhile isSpace
    if rest.isEmpty then (old, { buf := [], eofbit := true, failbit := true })
    else
      let word := rest.takeWhile (fun c => !isSpace c)
      let rest' := rest.dropWhile (fun c => !isSpace c)
      (word, { s with buf := rest', eofbit := rest'.isEmpty })

/-- The function `std::getline(stream, line, delim)`: the characters up to the delimiter
are read and the delimiter is discarded. When the stream is not good the variable keeps its
value `old` and `failbit` is set; when the input ends, `eofbit` is set, and `failbit` too if
nothing was read. -/
def getline (delim : Char) (s : IStream) (old : Str) : Str × IStream :=
  if !s.good then (old, { s with failbit := true })
  else
    let line := s.buf.takeWhile (fun c => c != delim)
    match s.buf.dropWhile (fun c => c != delim) with
    | [] => (line, { buf := [], eofbit := true, failbit := line.isEmpty })
    | _ :: rest => (line, { s with buf := rest })

/-- The calls `std::cin.clear()` and `std::cin.ignore(max, '\n')` in a row: the state bits
are cleared and the rest of the line is discarded. -/
def clearAndIgnoreLine (s : IStream) : IStream :=
  match s.buf.dropWhile (fun c => c != '\n') with
  | [] => { buf := [], eofbit := true, failbit := false }
  | _ :: rest => { buf := rest, eofbit := false, failbit := false }

/-- A call made by the command loop, or an error message it writes itself. -/
inductive Call where
  | displayHelp
  | fsCd (directory : Str)
  | fsRename (oldPath newPath : Str)
  /-- "Error: mv command requires two arguments: <old_path> <new_path>" -/
  | mvUsage
  /-- "Error: Failed to read input" -/
  | readFailed
  /-- `fsSearch(directory)`, with the search term it reads from the stream -/
  | fsSearch (directory searchTerm : Str)
  | fsDisplay (directory : Str)
  | fsCreate (path : Str) (isDirectory : Bool)
  | fsDelete (path : Str)
  deriving DecidableEq, Repr

/-- The variables of `main` that live across iterations, the stream, and the calls made so
far. -/
structure MainState where
  cin : IStream
  command : Str
  arg1 : Str
  arg2 : Str
  calls : List Call
  deriving DecidableEq, Repr

/-- One iteration of the `while (true)` loop of `main`: `none` for the `break` of `exit`
and `quit`, otherwise the state at the next iteration. -/
def mainIteration (st : MainState) : Option MainState :=
  let r := readWord st.cin st.command
  let command := r.1
  let cin := r.2
  if command = "exit".toList ∨ command = "quit".toList then none
  else if command = "help".toList then
    some { st with cin := cin, command := command, calls := st.calls ++ [Call.displayHelp] }
  else if command = "cd".toList then
    let g := getline '\n' (ws cin) []
    let cdPath := g.1
    if cdPath.isEmpty then
      some { st with cin := g.2, command := command,
                     calls := st.calls ++ [Call.fsCd "~".toList] }
    else
      some { st with cin := g.2, command := command, calls := st.calls ++ [Call.fsCd cdPath] }
  else if command = "mv".toList then
    let g1 := getline ' ' (ws cin) st.arg1
    let g2 := getline '\n' (ws g1.2) st.arg2
    if g1.1.isEmpty ∨ g2.1.isEmpty then
      some { cin := g2.2, command := command, arg1 := g1.1, arg2 := g2.1,
             calls := st.calls ++ [Call.mvUsage] }
    else
      some { cin := g2.2, command := command, arg1 := g1.1, arg2 := g2.1,
             calls := st.calls ++ [Call.fsRename g1.1 g2.1] }
  else
    let g := getline '\n' (ws cin) st.arg1
    let arg1 := g.1
    if g.2.failbit then
      some { st with cin := clearAndIgnoreLine g.2, command := command, arg1 := arg1,
                     calls := st.calls ++ [Call.readFailed] }
    else if command = "search".toList then
      let t := getline '\n' g.2 []
      some { st with cin := t.2, command := command, arg1 := arg1,
                     calls := st.calls ++ [Call.fsSearch arg1 t.1] }
    else if command = "display".toList then
      some { st with cin := g.2, command := command, arg1 := arg1,
                     calls := st.calls ++ [Call.fsDisplay arg1] }
    else if command = "mkdir".toList then
      some { st with cin := g.2, command := command, arg1 := arg1,
                     calls := st.calls ++ [Call.fsCreate arg1 true] }
    else if command = "touch".toList then
      some { st with cin := g.2, command := command, arg1 := arg1,
                     calls := st.calls ++ [Call.fsCreate arg1 false] }
    else if command = "rm".toList then
      some { st with cin := g.2, command := command, arg1 := arg1,
                     calls := st.calls ++ [Call.fsDelete arg1] }
    else
      some { st with cin := g.2, command := command, arg1 := arg1,
                     calls := st.calls ++ [Call.displayHelp] }

/-- The state of `main` before the first iteration, on the given standard input. -/
def mainStart (input : Str) : MainState :=
  { cin := { buf := input, eofbit := false, failbit := false }
    command := [], arg1 := [], arg2 := [], calls := [] }

/-- The `while (true)` loop of `main`: the calls made until `exit` or `quit`; `none` when
the fuel runs out before. -/
def mainLoop : Nat → MainState → Option (List Call)
  | 0, _ => none
  | fuel + 1, st =>
    match mainIteration st with
    | none => some st.calls
    | some st' => mainLoop fuel st'

/-! ## The lines written for the entries met -/

/-- The line `fsDisplay` writes for an entry: its kind tag and file name. -/
def itemLine (e : Entry) : Line :=
  Line.item e.kind (filename e.path)

/-- The line `fsSearch` writes for an entry that matches: its kind tag and path. -/
def matchedLine (e : Entry) : Line :=
  Line.matched e.kind e.path

/-- The test `fsSearch` applies to an entry: `matchesSearch` on the file name of its
path. -/
def matchesEntry (searchTerm : Str) (e : Entry) : Bool :=
  matchesSearch (filename e.path) searchTerm

/-- The line is an entry line of `fsDisplay`. -/
def Line.isItem : Line → Bool
  | Line.item _ _ => true
  | _ => false

/-- The line is a match line of `fsSearch`. -/
def Line.isMatched : Line → Bool
  | Line.matched _ _ => true
  | _ => false

/-! ## Directories whose enumeration fails -/

/-- The tree in which every directory that cannot be enumerated is an empty directory
that can. -/
def emptied : Forest → Forest
  | .nil => .nil
  | .file name rest => .file name (emptied rest)
  | .dir name en kids rest =>
    .dir name true (if en then emptied kids else .nil) (emptied rest)

/-- The pending directory in the emptied tree. -/
def emptiedPending (p : Pending) : Pending :=
  ⟨p.path, true, emptied (listing p.enumerable p.kids)⟩

/-- The loop state in the emptied tree. -/
def emptiedState (st : WalkState) : WalkState :=
  { st with stack := st.stack.map emptiedPending }

/-- `OpenTrail d kids t q`: a trail from the directory `d` down to `q` on which every
directory that is entered, `d` apart, can be enumerated; the last entry `q` may be
anything, also a directory that cannot. -/
inductive OpenTrail : Str → Forest → List Str → Str → Prop
  | child {d : Str} {kids : Forest} {name : Str} {node : Node} :
      (name, node) ∈ kids.entries →
      OpenTrail d kids [d, pathAppend d name] (pathAppend d name)
  | deeper {d : Str} {kids : Forest} {name : Str} {sub : Forest}
      {t : List Str} {q : Str} :
      (name, Node.dir true sub) ∈ kids.entries →
      OpenTrail (pathAppend d name) sub t q →
      OpenTrail d kids (d :: t) q

/-- A sample directory with a subdirectory `locked` that cannot be enumerated. -/
def sampleLockedTree : Forest :=
  .file "a.txt".toList
    (.dir "locked".toList false (.file "secret".toList .nil)
      (.dir "b".toList true (.file "c.TXT".toList .nil) .nil))

/-! ## A tree with many entries -/

/-- A tree of depth `n` in which every directory holds two directories, `a` and `b`, of the
same content: what a traversal sees where `a` and `b` are two links to one directory, so
that `n` directories on disk hold the whole tree. -/
def doubling : Nat → Forest
  | 0 => .nil
  | n + 1 => .dir "a".toList true (doubling n) (.dir "b".toList true (doubling n) .nil)

/-- A directory with 2^31 entries below it: two files, `r` and `rr`, and the tree
`doubling 30`. -/
def overfull : Forest :=
  .file "r".toList (.file "rr".toList (doubling 30))

/-- A path written with the characters `/`, `r`, `a` and `b` only. -/
def plainPath (p : Str) : Prop :=
  ∀ c ∈ p, c = '/' ∨ c = 'r' ∨ c = 'a' ∨ c = 'b'

/-! ## A sample tree -/

/-- A sample directory: a file, a recycle bin, and a subdirectory holding a file and a
page file. -/
def sampleTree : Forest :=
  .file "a.txt".toList
    (.dir "$Recycle.Bin".toList true (.file "x".toList .nil)
      (.dir "b".toList true
        (.file "c.TXT".toList (.file "pagefile.sys".toList .nil))
        .nil))

/-! ## Lemmas on `find` -/

theorem find_isSome_iff (hay needle : Str) :
    (find hay needle).isSome = true ↔ needle <:+: hay := by
  induction hay with
  | nil =>
    cases needle with
    | nil => simp [find]
    | cons a t => simp [find, List.isPrefixOf]
  | cons c t ih =>
    unfold find
    by_cases hp : needle.isPrefixOf (c :: t) = true
    · rw [if_pos hp]
      simp only [Option.isSome_some, true_iff]
      exact (List.isPrefixOf_iff_prefix.mp hp).isInfix
    · rw [if_neg hp, Option.isSome_map', ih, List.infix_cons_iff]
      constructor
      · intro h; exact Or.inr h
      · rintro (h | h)
        · exact absurd (List.isPrefixOf_iff_prefix.mpr h) hp
        · exact h

theorem shouldSkipLoop_iff (path : Str) (l : List Str) :
    shouldSkipLoop path l = true ↔ ∃ s ∈ l, s <:+: path := by
  induction l with
  | nil => simp [shouldSkipLoop]
  | cons s rest ih =>
    unfold shouldSkipLoop
    by_cases h : (find path s).isSome = true
    · rw [if_pos h]
      simp only [true_iff]
      exact ⟨s, List.mem_cons_self _ _, (find_isSome_iff _ _).mp h⟩
    · rw [if_neg h, ih]
      constructor
      · rintro ⟨x, hx, hi⟩; exact ⟨x, List.mem_cons_of_mem _ hx, hi⟩
      · rintro ⟨x, hx, hi⟩
        rcases List.mem_cons.mp hx with rfl | hx
        · exact absurd ((find_isSome_iff _ _).mpr hi) h
        · exact ⟨x, hx, hi⟩

theorem shouldSkipPath_iff (path : Str) :
    shouldSkipPath path = true ↔ ∃ s ∈ SYSTEM_SKIP_PATHS, s <:+: path :=
  shouldSkipLoop_iff path SYSTEM_SKIP_PATHS


/-! ## Lemmas on paths -/

theorem not_mem_of_validName {n : Str} (h : validName n = true) : '/' ∉ n := by
  unfold validName at h
  simp only [Bool.and_eq_true, Bool.not_eq_true'] at h
  intro hm
  have h2 := h.2
  simp [hm] at h2

theorem ne_nil_of_validName {n : Str} (h : validName n = true) : n ≠ [] := by
  unfold validName at h
  intro hn
  subst hn
  simp at h

theorem isAbsolute_of_validName {n : Str} (h : validName n = true) : isAbsolute n = false := by
  have hs := not_mem_of_validName h
  cases n with
  | nil => rfl
  | cons c t =>
    by_cases hc : c = '/'
    · subst hc; exact absurd (List.mem_cons_self _ _) hs
    · unfold isAbsolute
      split
      · rename_i heq
        injection heq with h1 _
        exact absurd h1 hc
      · rfl

theorem pathAppend_valid (d : Str) {n : Str} (h : validName n = true) :
    pathAppend d n = base d ++ n := by
  unfold pathAppend base
  rw [isAbsolute_of_validName h]
  by_cases hf : hasFilename d = true
  · simp [hf]
  · simp [hf]

theorem hasFilename_append_valid (x : Str) {n : Str} (h : validName n = true) :
    hasFilename (x ++ n) = true := by
  have hne := ne_nil_of_validName h
  have hs := not_mem_of_validName h
  unfold hasFilename
  rw [List.getLast?_append_of_ne_nil x hne, List.getLast?_eq_getLast n hne]
  simp only [bne_iff_ne, ne_eq]
  intro hc
  exact hs (hc ▸ List.getLast_mem hne)

theorem base_pathAppend (d : Str) {n : Str} (h : validName n = true) :
    base (pathAppend d n) = base d ++ n ++ ['/'] := by
  rw [pathAppend_valid d h]
  unfold base
  rw [hasFilename_append_valid _ h]
  simp

theorem prefix_base (d : Str) : d <+: base d := by
  unfold base
  split
  · exact List.prefix_append _ _
  · exact List.prefix_refl _

theorem prefix_pathAppend (d : Str) {n : Str} (h : validName n = true) :
    d <+: pathAppend d n := by
  rw [pathAppend_valid d h]
  exact (prefix_base d).trans (List.prefix_append _ _)

theorem shouldSkipPath_mono {a q : Str} (h : a <+: q) (ha : shouldSkipPath a = true) :
    shouldSkipPath q = true := by
  rw [shouldSkipPath_iff] at ha ⊢
  obtain ⟨s, hs, hi⟩ := ha
  exact ⟨s, hs, hi.trans h.isInfix⟩

theorem name_eq_of_append_sep {a b r s : Str} (ha : '/' ∉ a) (hb : '/' ∉ b)
    (h : a ++ '/' :: r = b ++ '/' :: s) : a = b := by
  induction a generalizing b with
  | nil =>
    cases b with
    | nil => rfl
    | cons c t =>
      simp only [List.nil_append, List.cons_append, List.cons.injEq] at h
      exact absurd (h.1 ▸ List.mem_cons_self _ _) hb
  | cons x a ih =>
    cases b with
    | nil =>
      simp only [List.nil_append, List.cons_append, List.cons.injEq] at h
      exact absurd (h.1 ▸ List.mem_cons_self _ _) ha
    | cons c t =>
      simp only [List.cons_append, List.cons.injEq] at h
      rw [h.1, ih (fun hm => ha (List.mem_cons_of_mem _ hm))
        (fun hm => hb (List.mem_cons_of_mem _ hm)) h.2]


/-! ## The loops compute the closed form -/

theorem countAfter_add (a b : Nat) (c : Int) :
    countAfter (a + b) c = countAfter b (countAfter a c) := by
  induction a generalizing c with
  | zero => simp [countAfter]
  | succ a ih =>
    rw [Nat.add_right_comm]
    simp only [countAfter]
    exact ih _

theorem wrapInt_add_wrapInt (c k : Int) : wrapInt (wrapInt c + k) = wrapInt (c + k) := by
  unfold wrapInt
  omega

theorem countAfter_wrapInt (n : Nat) (c : Int) :
    countAfter n (wrapInt c) = wrapInt (c + n) := by
  induction n generalizing c with
  | zero => simp [countAfter]
  | succ n ih =>
    simp only [countAfter]
    rw [ih, Int.add_assoc, wrapInt_add_wrapInt]
    congr 1
    push_cast
    omega

theorem countAfter_zero_eq (n : Nat) : countAfter n 0 = wrapInt n := by
  have h := countAfter_wrapInt n 0
  have h0 : wrapInt 0 = 0 := by decide
  rw [h0] at h
  simpa using h

theorem wrapInt_of_lt {n : Nat} (h : n < 2147483648) : wrapInt n = n := by
  unfold wrapInt
  omega

theorem displayEntries_spec (d : Str) (F : Forest) (st : WalkState) :
    (displayEntries d F st).visited = st.visited ++ scanEntries d F ∧
    (displayEntries d F st).stack = (pushedDirs d F).reverse ++ st.stack ∧
    (displayEntries d F st).count = countAfter (scanEntries d F).length st.count := by
  induction F generalizing st with
  | nil => simp [displayEntries, scanEntries, pushedDirs, countAfter]
  | file name rest ih =>
    cases h : shouldSkipPath (pathAppend d name)
    · simp only [displayEntries, scanEntries, pushedDirs, h, Bool.false_eq_true, if_false]
      refine ⟨?_, ?_, ?_⟩
      · rw [(ih _).1]; simp
      · rw [(ih _).2.1]
      · rw [(ih _).2.2]; simp only [List.length_cons, countAfter]
    · simp only [displayEntries, scanEntries, pushedDirs, h, if_true]; exact ih st
  | dir name en kids rest _ ih =>
    cases h : shouldSkipPath (pathAppend d name)
    · simp only [displayEntries, scanEntries, pushedDirs, h, Bool.false_eq_true, if_false]
      refine ⟨?_, ?_, ?_⟩
      · rw [(ih _).1]; simp
      · rw [(ih _).2.1]; simp
      · rw [(ih _).2.2]; simp only [List.length_cons, countAfter]
    · simp only [displayEntries, scanEntries, pushedDirs, h, if_true]; exact ih st

theorem fuelFor_append (a b : List Pending) : fuelFor (a ++ b) = fuelFor a + fuelFor b := by
  induction a with
  | nil => simp [fuelFor]
  | cons p a ih => rw [List.cons_append]; simp only [fuelFor]; rw [ih]; omega

theorem fuelFor_reverse (a : List Pending) : fuelFor a.reverse = fuelFor a := by
  induction a with
  | nil => rfl
  | cons p a ih => rw [List.reverse_cons, fuelFor_append, ih]; simp only [fuelFor]; omega

theorem fuelFor_pushedDirs_le (d : Str) (F : Forest) : fuelFor (pushedDirs d F) ≤ F.dirCount := by
  induction F with
  | nil => simp [pushedDirs, fuelFor]
  | file name rest ih => simpa [pushedDirs, Forest.dirCount] using ih
  | dir name en kids rest _ ih =>
    unfold pushedDirs
    by_cases h : shouldSkipPath (pathAppend d name) = true
    · simp only [h, if_true, Forest.dirCount]; omega
    · simp only [h, if_false, Forest.dirCount, fuelFor]; omega

theorem fuelFor_listing_le (d : Str) (en : Bool) (F : Forest) :
    fuelFor (pushedDirs d (listing en F)) ≤ F.dirCount := by
  unfold listing
  cases en
  · simp [pushedDirs, fuelFor]
  · simpa using fuelFor_pushedDirs_le d F

theorem visitsOf_append (a b : List Pending) : visitsOf (a ++ b) = visitsOf a ++ visitsOf b := by
  induction a with
  | nil => simp [visitsOf]
  | cons p a ih => simp [visitsOf, ih]

theorem visitsOf_reverse_pushedDirs (d : Str) (F : Forest) :
    visitsOf (pushedDirs d F).reverse = below d F := by
  induction F with
  | nil => simp [pushedDirs, below, visitsOf]
  | file name rest ih => simpa [pushedDirs, below] using ih
  | dir name en kids rest _ ih =>
    unfold pushedDirs below
    cases h : shouldSkipPath (pathAppend d name)
    · simp only [Bool.false_eq_true, if_false, List.reverse_cons, visitsOf_append, ih, visitsOf,
        expand, List.append_nil, h]
    · simp only [if_true, List.append_nil]; exact ih

theorem expand_eq (p : Str) (en : Bool) (kids : Forest) :
    expand p en kids =
      if shouldSkipPath p then []
      else scanEntries p (listing en kids) ++ below p (listing en kids) := by
  unfold expand listing
  cases en <;> simp [scanEntries, below]

theorem displayLoop_spec (fuel : Nat) (st : WalkState) (h : fuelFor st.stack < fuel) :
    ∃ st', displayLoop fuel st = some st' ∧ st'.stack = [] ∧
      st'.visited = st.visited ++ visitsOf st.stack ∧
      st'.count = countAfter (visitsOf st.stack).length st.count := by
  induction fuel generalizing st with
  | zero => omega
  | succ fuel ih =>
    unfold displayLoop
    cases hs : st.stack with
    | nil => exact ⟨st, rfl, hs, by simp [visitsOf], by simp [visitsOf, countAfter]⟩
    | cons top rest =>
      rw [hs] at h
      simp only [fuelFor] at h
      by_cases hk : shouldSkipPath top.path = true
      · simp only [hk, if_true]
        obtain ⟨st', h1, h2, h3, h4⟩ := ih { st with stack := rest } (by simp only; omega)
        refine ⟨st', h1, h2, ?_, ?_⟩
        · rw [h3]; simp [visitsOf, expand, hk]
        · rw [h4]; simp [visitsOf, expand, hk]
      · simp only [hk, if_false]
        obtain ⟨e1, e2, e3⟩ := displayEntries_spec top.path (listing top.enumerable top.kids)
          { st with out := st.out ++ [Line.dirHeader top.path], stack := rest }
        have hfl := fuelFor_listing_le top.path top.enumerable top.kids
        obtain ⟨st', h1, h2, h3, h4⟩ := ih
          (displayEntries top.path (listing top.enumerable top.kids)
            { st with out := st.out ++ [Line.dirHeader top.path], stack := rest })
          (by rw [e2, fuelFor_append, fuelFor_reverse]; simp only; omega)
        refine ⟨st', h1, h2, ?_, ?_⟩
        · rw [h3, e1, e2, visitsOf_append, visitsOf_reverse_pushedDirs]
          simp [visitsOf, expand_eq, hk]
        · rw [h4, e3, e2, visitsOf_append, visitsOf_reverse_pushedDirs]
          simp [visitsOf, expand_eq, hk]
          exact (countAfter_add _ _ _).symm


theorem searchEntries_spec (term d : Str) (F : Forest) (st : WalkState) :
    (searchEntries term d F st).visited = st.visited ++ scanEntries d F ∧
    (searchEntries term d F st).stack = (pushedDirs d F).reverse ++ st.stack ∧
    (searchEntries term d F st).count =
      countAfter ((scanEntries d F).countP (fun e => matchesSearch (filename e.path) term))
        st.count := by
  induction F generalizing st with
  | nil => simp [searchEntries, scanEntries, pushedDirs, countAfter]
  | file name rest ih =>
    cases h : shouldSkipPath (pathAppend d name)
    · simp only [searchEntries, scanEntries, pushedDirs, h, Bool.false_eq_true, if_false]
      refine ⟨?_, ?_, ?_⟩
      · rw [(ih _).1]
        cases matchesSearch (filename (pathAppend d name)) term <;> simp
      · rw [(ih _).2.1]
        cases matchesSearch (filename (pathAppend d name)) term <;> simp
      · rw [(ih _).2.2, List.countP_cons]
        cases matchesSearch (filename (pathAppend d name)) term <;> simp [countAfter]
    · simp only [searchEntries, scanEntries, pushedDirs, h, if_true]; exact ih st
  | dir name en kids rest _ ih =>
    cases h : shouldSkipPath (pathAppend d name)
    · simp only [searchEntries, scanEntries, pushedDirs, h, Bool.false_eq_true, if_false]
      refine ⟨?_, ?_, ?_⟩
      · rw [(ih _).1]
        cases matchesSearch (filename (pathAppend d name)) term <;> simp
      · rw [(ih _).2.1]
        cases matchesSearch (filename (pathAppend d name)) term <;> simp
      · rw [(ih _).2.2, List.countP_cons]
        cases matchesSearch (filename (pathAppend d name)) term <;> simp [countAfter]
    · simp only [searchEntries, scanEntries, pushedDirs, h, if_true]; exact ih st

theorem searchLoop_spec (term : Str) (fuel : Nat) (st : WalkState)
    (h : fuelFor st.stack < fuel) :
    ∃ st', searchLoop term fuel st = some st' ∧ st'.stack = [] ∧
      st'.visited = st.visited ++ visitsOf st.stack ∧
      st'.count = countAfter
        ((visitsOf st.stack).countP (fun e => matchesSearch (filename e.path) term))
        st.count := by
  induction fuel generalizing st with
  | zero => omega
  | succ fuel ih =>
    unfold searchLoop
    cases hs : st.stack with
    | nil => exact ⟨st, rfl, hs, by simp [visitsOf], by simp [visitsOf, countAfter]⟩
    | cons top rest =>
      rw [hs] at h
      simp only [fuelFor] at h
      by_cases hk : shouldSkipPath top.path = true
      · simp only [hk, if_true]
        obtain ⟨st', h1, h2, h3, h4⟩ := ih { st with stack := rest } (by simp only; omega)
        refine ⟨st', h1, h2, ?_, ?_⟩
        · rw [h3]; simp [visitsOf, expand, hk]
        · rw [h4]; simp [visitsOf, expand, hk]
      · simp only [hk, if_false]
        obtain ⟨e1, e2, e3⟩ := searchEntries_spec term top.path
          (listing top.enumerable top.kids) { st with stack := rest }
        have hfl := fuelFor_listing_le top.path top.enumerable top.kids
        obtain ⟨st', h1, h2, h3, h4⟩ := ih
          (searchEntries term top.path (listing top.enumerable top.kids)
            { st with stack := rest })
          (by rw [e2, fuelFor_append, fuelFor_reverse]; simp only; omega)
        refine ⟨st', h1, h2, ?_, ?_⟩
        · rw [h3, e1, e2, visitsOf_append, visitsOf_reverse_pushedDirs]
          simp [visitsOf, expand_eq, hk]
        · rw [h4, e3, e2, visitsOf_append, visitsOf_reverse_pushedDirs]
          simp [visitsOf, expand_eq, hk]
          exact (countAfter_add _ _ _).symm

/-! ## The closed form and reachability -/

theorem mem_scanEntries {d : Str} {F : Forest} {e : Entry} :
    e ∈ scanEntries d F ↔
      ∃ name node, (name, node) ∈ F.entries ∧ e = ⟨pathAppend d name, node.kind⟩ ∧
        shouldSkipPath (pathAppend d name) = false := by
  induction F with
  | nil => simp [scanEntries, Forest.entries]
  | file name rest ih =>
    cases h : shouldSkipPath (pathAppend d name)
    · simp only [scanEntries, h, Bool.false_eq_true, if_false, List.mem_cons, ih,
        Forest.entries]
      constructor
      · rintro (rfl | ⟨n, nd, hm, he, hs⟩)
        · exact ⟨name, Node.file, Or.inl rfl, rfl, h⟩
        · exact ⟨n, nd, Or.inr hm, he, hs⟩
      · rintro ⟨n, nd, hm | hm, he, hs⟩
        · injection hm with h1 h2
          subst h1 h2
          exact Or.inl he
        · exact Or.inr ⟨n, nd, hm, he, hs⟩
    · simp only [scanEntries, h, if_true, ih, Forest.entries, List.mem_cons]
      constructor
      · rintro ⟨n, nd, hm, he, hs⟩
        exact ⟨n, nd, Or.inr hm, he, hs⟩
      · rintro ⟨n, nd, hm | hm, he, hs⟩
        · injection hm with h1 h2
          subst h1
          rw [h] at hs
          exact absurd hs (by decide)
        · exact ⟨n, nd, hm, he, hs⟩
  | dir name en kids rest _ ih =>
    cases h : shouldSkipPath (pathAppend d name)
    · simp only [scanEntries, h, Bool.false_eq_true, if_false, List.mem_cons, ih,
        Forest.entries]
      constructor
      · rintro (rfl | ⟨n, nd, hm, he, hs⟩)
        · exact ⟨name, Node.dir en kids, Or.inl rfl, rfl, h⟩
        · exact ⟨n, nd, Or.inr hm, he, hs⟩
      · rintro ⟨n, nd, hm | hm, he, hs⟩
        · injection hm with h1 h2
          subst h1 h2
          exact Or.inl he
        · exact Or.inr ⟨n, nd, hm, he, hs⟩
    · simp only [scanEntries, h, if_true, ih, Forest.entries, List.mem_cons]
      constructor
      · rintro ⟨n, nd, hm, he, hs⟩
        exact ⟨n, nd, Or.inr hm, he, hs⟩
      · rintro ⟨n, nd, hm | hm, he, hs⟩
        · injection hm with h1 h2
          subst h1
          rw [h] at hs
          exact absurd hs (by decide)
        · exact ⟨n, nd, hm, he, hs⟩

theorem mem_below {d : Str} {F : Forest} {e : Entry} :
    e ∈ below d F ↔
      ∃ name en sub, (name, Node.dir en sub) ∈ F.entries ∧
        e ∈ expand (pathAppend d name) en sub := by
  induction F with
  | nil => simp [below, Forest.entries]
  | file name rest ih =>
    simp only [below, ih, Forest.entries, List.mem_cons]
    constructor
    · rintro ⟨n, en, sub, hm, he⟩
      exact ⟨n, en, sub, Or.inr hm, he⟩
    · rintro ⟨n, en, sub, hm | hm, he⟩
      · injection hm with _ h2
        exact Node.noConfusion h2
      · exact ⟨n, en, sub, hm, he⟩
  | dir name en kids rest _ ih =>
    have hx : (if shouldSkipPath (pathAppend d name) then []
        else if en then scanEntries (pathAppend d name) kids ++ below (pathAppend d name) kids
        else []) = expand (pathAppend d name) en kids := rfl
    simp only [below, hx, List.mem_append, ih, Forest.entries, List.mem_cons]
    constructor
    · rintro (⟨n, en', sub, hm, he⟩ | he)
      · exact ⟨n, en', sub, Or.inr hm, he⟩
      · exact ⟨name, en, kids, Or.inl rfl, he⟩
    · rintro ⟨n, en', sub, hm | hm, he⟩
      · injection hm with h1 h2
        injection h2 with h3 h4
        subst h1 h3 h4
        exact Or.inr he
      · exact Or.inl ⟨n, en', sub, hm, he⟩


/-! ## Well-formed trees -/

theorem wf_file {name : Str} {rest : Forest} (h : (Forest.file name rest).wellFormed = true) :
    validName name = true ∧ name ∉ rest.names ∧ rest.wellFormed = true := by
  simp only [Forest.wellFormed, Bool.and_eq_true, Bool.not_eq_true'] at h
  exact ⟨h.1.1, by simpa using h.1.2, h.2⟩

theorem wf_dir {name : Str} {en : Bool} {kids rest : Forest}
    (h : (Forest.dir name en kids rest).wellFormed = true) :
    validName name = true ∧ name ∉ rest.names ∧ kids.wellFormed = true ∧
      rest.wellFormed = true := by
  simp only [Forest.wellFormed, Bool.and_eq_true, Bool.not_eq_true'] at h
  exact ⟨h.1.1.1, by simpa using h.1.1.2, h.1.2, h.2⟩

theorem mem_names_of_mem_entries {F : Forest} {name : Str} {node : Node}
    (h : (name, node) ∈ F.entries) : name ∈ F.names := by
  induction F with
  | nil => simp [Forest.entries] at h
  | file n rest ih =>
    simp only [Forest.entries, List.mem_cons, Prod.mk.injEq] at h
    simp only [Forest.names, List.mem_cons]
    rcases h with h | h
    · exact Or.inl h.1
    · exact Or.inr (ih h)
  | dir n en kids rest _ ih =>
    simp only [Forest.entries, List.mem_cons, Prod.mk.injEq] at h
    simp only [Forest.names, List.mem_cons]
    rcases h with h | h
    · exact Or.inl h.1
    · exact Or.inr (ih h)

theorem valid_of_mem_names {F : Forest} (hw : F.wellFormed = true) {name : Str}
    (h : name ∈ F.names) : validName name = true := by
  induction F with
  | nil => simp [Forest.names] at h
  | file n rest ih =>
    obtain ⟨h1, _, h3⟩ := wf_file hw
    simp only [Forest.names, List.mem_cons] at h
    rcases h with rfl | h
    · exact h1
    · exact ih h3 h
  | dir n en kids rest _ ih =>
    obtain ⟨h1, _, _, h4⟩ := wf_dir hw
    simp only [Forest.names, List.mem_cons] at h
    rcases h with rfl | h
    · exact h1
    · exact ih h4 h

theorem wf_of_mem_entries {F : Forest} (hw : F.wellFormed = true) {name : Str} {en : Bool}
    {sub : Forest} (h : (name, Node.dir en sub) ∈ F.entries) : sub.wellFormed = true := by
  induction F with
  | nil => simp [Forest.entries] at h
  | file n rest ih =>
    obtain ⟨_, _, h3⟩ := wf_file hw
    simp only [Forest.entries, List.mem_cons, Prod.mk.injEq] at h
    rcases h with h | h
    · exact Node.noConfusion h.2
    · exact ih h3 h
  | dir n e kids rest _ ih =>
    obtain ⟨_, _, h3, h4⟩ := wf_dir hw
    simp only [Forest.entries, List.mem_cons, Prod.mk.injEq, Node.dir.injEq] at h
    rcases h with h | h
    · rw [h.2.2]; exact h3
    · exact ih h4 h

theorem enum_of_mem_entries {F : Forest} (hw : F.allEnumerable = true) {name : Str} {en : Bool}
    {sub : Forest} (h : (name, Node.dir en sub) ∈ F.entries) :
    en = true ∧ sub.allEnumerable = true := by
  induction F with
  | nil => simp [Forest.entries] at h
  | file n rest ih =>
    simp only [Forest.allEnumerable] at hw
    simp only [Forest.entries, List.mem_cons, Prod.mk.injEq] at h
    rcases h with h | h
    · exact Node.noConfusion h.2
    · exact ih hw h
  | dir n e kids rest _ ih =>
    simp only [Forest.allEnumerable, Bool.and_eq_true] at hw
    simp only [Forest.entries, List.mem_cons, Prod.mk.injEq, Node.dir.injEq] at h
    rcases h with h | h
    · rw [h.2.1, h.2.2]; exact ⟨hw.1.1, hw.1.2⟩
    · exact ih hw.2 h

/-! ## Trails -/

theorem Trail.head_mem {d : Str} {F : Forest} {t : List Str} {q : Str} (h : Trail d F t q) :
    d ∈ t := by
  cases h with
  | child _ => exact List.mem_cons_self _ _
  | deeper _ _ => exact List.mem_cons_self _ _

theorem Trail.last_mem {d : Str} {F : Forest} {t : List Str} {q : Str} (h : Trail d F t q) :
    q ∈ t := by
  induction h with
  | child _ => exact List.mem_cons_of_mem _ (List.mem_cons_self _ _)
  | deeper _ _ ih => exact List.mem_cons_of_mem _ ih

theorem Trail.mono {d : Str} {F G : Forest} {t : List Str} {q : Str}
    (hsub : ∀ x, x ∈ F.entries → x ∈ G.entries) (h : Trail d F t q) : Trail d G t q := by
  cases h with
  | child hm => exact Trail.child (hsub _ hm)
  | deeper hm ht => exact Trail.deeper (hsub _ hm) ht

theorem Trail.prefixes {d : Str} {F : Forest} {t : List Str} {q : Str} (h : Trail d F t q)
    (hw : F.wellFormed = true) : ∀ a ∈ t, a <+: q := by
  induction h with
  | @child d kids name node hm =>
    intro a ha
    have hv := valid_of_mem_names hw (mem_names_of_mem_entries hm)
    simp only [List.mem_cons, List.mem_singleton, List.not_mem_nil, or_false] at ha
    rcases ha with rfl | rfl
    · exact prefix_pathAppend _ hv
    · exact List.prefix_refl _
  | @deeper d kids name en sub t q hm ht ih =>
    intro a ha
    have hv := valid_of_mem_names hw (mem_names_of_mem_entries hm)
    have hsub := ih (wf_of_mem_entries hw hm)
    rcases List.mem_cons.mp ha with rfl | ha
    · exact (prefix_pathAppend _ hv).trans (hsub _ ht.head_mem)
    · exact hsub a ha

theorem trail_of_mem_below (F : Forest) :
    ∀ (d : Str) (e : Entry), shouldSkipPath d = false → e ∈ below d F →
      ∃ t, Trail d F t e.path ∧ ∀ a ∈ t, shouldSkipPath a = false := by
  induction F with
  | nil => intro d e _ he; simp [below] at he
  | file name rest ih =>
    intro d e hd he
    simp only [below] at he
    obtain ⟨t, ht, hc⟩ := ih d e hd he
    exact ⟨t, ht.mono (fun x hx => by simp only [Forest.entries]; exact List.mem_cons_of_mem _ hx),
      hc⟩
  | dir name en kids rest ihk ihr =>
    intro d e hd he
    simp only [below, List.mem_append] at he
    rcases he with he | he
    · obtain ⟨t, ht, hc⟩ := ihr d e hd he
      exact ⟨t,
        ht.mono (fun x hx => by simp only [Forest.entries]; exact List.mem_cons_of_mem _ hx), hc⟩
    · have hhead : (name, Node.dir en kids) ∈ (Forest.dir name en kids rest).entries := by
        simp [Forest.entries]
      cases hs : shouldSkipPath (pathAppend d name)
      · cases en
        · simp [hs] at he
        · simp only [hs, Bool.false_eq_true, if_false, if_true, List.mem_append] at he
          rcases he with he | he
          · obtain ⟨n, node, hm, rfl, hsk⟩ := mem_scanEntries.mp he
            refine ⟨[d, pathAppend d name, pathAppend (pathAppend d name) n],
              Trail.deeper hhead (Trail.child hm), ?_⟩
            intro a ha
            simp only [List.mem_cons, List.mem_singleton, List.not_mem_nil, or_false] at ha
            rcases ha with rfl | rfl | rfl
            · exact hd
            · exact hs
            · exact hsk
          · obtain ⟨t, ht, hc⟩ := ihk (pathAppend d name) e hs he
            refine ⟨d :: t, Trail.deeper hhead ht, ?_⟩
            intro a ha
            rcases List.mem_cons.mp ha with rfl | ha
            · exact hd
            · exact hc a ha
      · simp [hs] at he

theorem trail_of_mem_expand {d : Str} {en : Bool} {F : Forest} {e : Entry}
    (he : e ∈ expand d en F) :
    ∃ t, Trail d F t e.path ∧ ∀ a ∈ t, shouldSkipPath a = false := by
  unfold expand at he
  cases hd : shouldSkipPath d
  · cases en
    · simp [hd] at he
    · simp only [hd, Bool.false_eq_true, if_false, if_true, List.mem_append] at he
      rcases he with he | he
      · obtain ⟨n, node, hm, rfl, hsk⟩ := mem_scanEntries.mp he
        refine ⟨[d, pathAppend d n], Trail.child hm, ?_⟩
        intro a ha
        simp only [List.mem_cons, List.mem_singleton, List.not_mem_nil, or_false] at ha
        rcases ha with rfl | rfl
        · exact hd
        · exact hsk
      · exact trail_of_mem_below F d e hd he
  · simp [hd] at he

theorem mem_expand_of_trail {d : Str} {F : Forest} {t : List Str} {q : Str}
    (h : Trail d F t q) (hen : F.allEnumerable = true)
    (hc : ∀ a ∈ t, shouldSkipPath a = false) :
    ∃ k, (⟨q, k⟩ : Entry) ∈ expand d true F := by
  induction h with
  | @child d kids name node hm =>
    have hd : shouldSkipPath d = false := hc d (List.mem_cons_self _ _)
    have hq : shouldSkipPath (pathAppend d name) = false :=
      hc _ (List.mem_cons_of_mem _ (List.mem_cons_self _ _))
    refine ⟨node.kind, ?_⟩
    simp only [expand, hd, Bool.false_eq_true, if_false, if_true, List.mem_append]
    exact Or.inl (mem_scanEntries.mpr ⟨name, node, hm, rfl, hq⟩)
  | @deeper d kids name en sub t q hm ht ih =>
    have hd : shouldSkipPath d = false := hc d (List.mem_cons_self _ _)
    obtain ⟨hen1, hen2⟩ := enum_of_mem_entries hen hm
    obtain ⟨k, hk⟩ := ih hen2 (fun a ha => hc a (List.mem_cons_of_mem _ ha))
    refine ⟨k, ?_⟩
    simp only [expand, hd, Bool.false_eq_true, if_false, if_true, List.mem_append]
    subst hen1
    exact Or.inr (mem_below.mpr ⟨name, true, sub, hm, hk⟩)


/-! ## No path is met twice -/

theorem path_of_mem_scanEntries {d : Str} {F : Forest} {e : Entry}
    (hw : F.wellFormed = true) (he : e ∈ scanEntries d F) :
    ∃ n, n ∈ F.names ∧ validName n = true ∧ e.path = base d ++ n := by
  obtain ⟨n, node, hm, rfl, _⟩ := mem_scanEntries.mp he
  have hn := mem_names_of_mem_entries hm
  exact ⟨n, hn, valid_of_mem_names hw hn, pathAppend_valid d (valid_of_mem_names hw hn)⟩

theorem path_of_mem_below (F : Forest) :
    F.wellFormed = true → ∀ (d : Str) (e : Entry), e ∈ below d F →
      ∃ n, n ∈ F.names ∧ validName n = true ∧ ∃ r, e.path = base d ++ n ++ '/' :: r := by
  induction F with
  | nil => intro _ d e he; simp [below] at he
  | file name rest ih =>
    intro hw d e he
    obtain ⟨_, _, h3⟩ := wf_file hw
    simp only [below] at he
    obtain ⟨n, hn, hv, r, hr⟩ := ih h3 d e he
    exact ⟨n, by simp only [Forest.names]; exact List.mem_cons_of_mem _ hn, hv, r, hr⟩
  | dir name en kids rest ihk ihr =>
    intro hw d e he
    obtain ⟨h1, _, h3, h4⟩ := wf_dir hw
    simp only [below, List.mem_append] at he
    rcases he with he | he
    · obtain ⟨n, hn, hv, r, hr⟩ := ihr h4 d e he
      exact ⟨n, by simp only [Forest.names]; exact List.mem_cons_of_mem _ hn, hv, r, hr⟩
    · refine ⟨name, by simp [Forest.names], h1, ?_⟩
      cases hs : shouldSkipPath (pathAppend d name)
      · cases en
        · simp [hs] at he
        · simp only [hs, Bool.false_eq_true, if_false, if_true, List.mem_append] at he
          rcases he with he | he
          · obtain ⟨m, _, _, hm⟩ := path_of_mem_scanEntries h3 he
            refine ⟨m, ?_⟩
            rw [hm, base_pathAppend d h1]
            simp
          · obtain ⟨m, _, _, r, hm⟩ := ihk h3 (pathAppend d name) e he
            refine ⟨m ++ '/' :: r, ?_⟩
            rw [hm, base_pathAppend d h1]
            simp
      · simp [hs] at he

theorem nodup_scanEntries (F : Forest) (hw : F.wellFormed = true) (d : Str) :
    ((scanEntries d F).map Entry.path).Nodup := by
  induction F with
  | nil => simp [scanEntries]
  | file name rest ih =>
    obtain ⟨h1, h2, h3⟩ := wf_file hw
    cases hs : shouldSkipPath (pathAppend d name)
    · simp only [scanEntries, hs, Bool.false_eq_true, if_false, List.map_cons, List.nodup_cons]
      refine ⟨?_, ih h3⟩
      intro hm
      obtain ⟨e, he, hp⟩ := List.mem_map.mp hm
      obtain ⟨n, hn, _, hpn⟩ := path_of_mem_scanEntries h3 he
      rw [hpn, pathAppend_valid d h1] at hp
      have := List.append_cancel_left hp
      exact h2 (this ▸ hn)
    · simp only [scanEntries, hs, if_true]; exact ih h3
  | dir name en kids rest _ ih =>
    obtain ⟨h1, h2, _, h3⟩ := wf_dir hw
    cases hs : shouldSkipPath (pathAppend d name)
    · simp only [scanEntries, hs, Bool.false_eq_true, if_false, List.map_cons, List.nodup_cons]
      refine ⟨?_, ih h3⟩
      intro hm
      obtain ⟨e, he, hp⟩ := List.mem_map.mp hm
      obtain ⟨n, hn, _, hpn⟩ := path_of_mem_scanEntries h3 he
      rw [hpn, pathAppend_valid d h1] at hp
      have := List.append_cancel_left hp
      exact h2 (this ▸ hn)
    · simp only [scanEntries, hs, if_true]; exact ih h3

theorem nodup_scan_append_below {F : Forest} (hw : F.wellFormed = true) (d : Str)
    (hb : ((below d F).map Entry.path).Nodup) :
    ((scanEntries d F ++ below d F).map Entry.path).Nodup := by
  rw [List.map_append, List.nodup_append]
  refine ⟨nodup_scanEntries F hw d, hb, ?_⟩
  intro x hx1 hx2
  obtain ⟨e1, he1, hp1⟩ := List.mem_map.mp hx1
  obtain ⟨e2, he2, hp2⟩ := List.mem_map.mp hx2
  obtain ⟨n, _, hv, hn⟩ := path_of_mem_scanEntries hw he1
  obtain ⟨m, _, _, r, hm⟩ := path_of_mem_below F hw d e2 he2
  rw [← hp2, hn, hm, List.append_assoc] at hp1
  have hnm := List.append_cancel_left hp1
  apply not_mem_of_validName hv
  rw [hnm]
  simp

theorem path_of_mem_expand {p : Str} {en : Bool} {F : Forest} {e : Entry}
    (hw : F.wellFormed = true) (he : e ∈ expand p en F) : ∃ r, e.path = base p ++ r := by
  unfold expand at he
  cases hs : shouldSkipPath p
  · cases en
    · simp [hs] at he
    · simp only [hs, Bool.false_eq_true, if_false, if_true, List.mem_append] at he
      rcases he with he | he
      · obtain ⟨n, _, _, hn⟩ := path_of_mem_scanEntries hw he
        exact ⟨n, hn⟩
      · obtain ⟨n, _, _, r, hn⟩ := path_of_mem_below F hw p e he
        exact ⟨n ++ '/' :: r, by rw [hn, List.append_assoc]⟩
  · simp [hs] at he

theorem nodup_below (F : Forest) :
    F.wellFormed = true → ∀ d : Str, ((below d F).map Entry.path).Nodup := by
  induction F with
  | nil => intro _ d; simp [below]
  | file name rest ih =>
    intro hw d
    obtain ⟨_, _, h3⟩ := wf_file hw
    simp only [below]
    exact ih h3 d
  | dir name en kids rest ihk ihr =>
    intro hw d
    obtain ⟨h1, h2, h3, h4⟩ := wf_dir hw
    have hx : (if shouldSkipPath (pathAppend d name) then []
        else if en then scanEntries (pathAppend d name) kids ++ below (pathAppend d name) kids
        else []) = expand (pathAppend d name) en kids := rfl
    simp only [below, hx, List.map_append]
    rw [List.nodup_append]
    refine ⟨ihr h4 d, ?_, ?_⟩
    · unfold expand
      cases shouldSkipPath (pathAppend d name)
      · cases en
        · simp
        · simp only [Bool.false_eq_true, if_false, if_true]
          exact nodup_scan_append_below h3 _ (ihk h3 _)
      · simp
    · intro x hx1 hx2
      obtain ⟨e1, he1, hp1⟩ := List.mem_map.mp hx1
      obtain ⟨e2, he2, hp2⟩ := List.mem_map.mp hx2
      obtain ⟨n, hn, hv, r, hr⟩ := path_of_mem_below rest h4 d e1 he1
      obtain ⟨r', hr'⟩ := path_of_mem_expand h3 he2
      rw [← hp2, hr, hr', base_pathAppend d h1] at hp1
      simp only [List.append_assoc, List.singleton_append] at hp1
      have hnm := name_eq_of_append_sep (not_mem_of_validName hv) (not_mem_of_validName h1)
        (List.append_cancel_left hp1)
      exact h2 (hnm ▸ hn)


/-! ## C1, C2, C3 -/

/-- C1: `shouldSkipPath p` is true exactly when `p` contains one of the five entries of
`SYSTEM_SKIP_PATHS` as a contiguous (case-sensitive) substring; the function is total, and
false on the empty string. The match is on the characters as they are: a page file is
skipped, the same name in upper case is not. -/
theorem shouldSkipPath_true_iff_contains_entry :
    (∀ p : Str, shouldSkipPath p = true ↔
      ("$Recycle.Bin".toList <:+: p ∨ "System Volume Information".toList <:+: p ∨
        "pagefile.sys".toList <:+: p ∨ "hiberfil.sys".toList <:+: p ∨
        "swapfile.sys".toList <:+: p)) ∧
    shouldSkipPath [] = false ∧
    shouldSkipPath "/mnt/c/pagefile.sys".toList = true ∧
    shouldSkipPath "/mnt/c/PAGEFILE.SYS".toList = false := by
  refine ⟨fun p => ?_, by decide, by decide, by decide⟩
  rw [shouldSkipPath_iff]
  simp only [SYSTEM_SKIP_PATHS, List.mem_cons, List.mem_singleton, List.not_mem_nil, or_false,
    exists_eq_or_imp, exists_eq_left]

/-- C3: `matchesSearch name term` is true exactly when the lowercased name contains the
lowercased term as a contiguous substring; so the result depends only on the lowercased
arguments, `matchesSearch "Report.TXT" "report"` is true, `matchesSearch "report" "TXT"` is
false, and the empty term matches every name. -/
theorem matchesSearch_true_iff_lowercase_infix :
    (∀ name term : Str, matchesSearch name term = true ↔
      term.map tolower <:+: name.map tolower) ∧
    (∀ name name' term term' : Str, name.map tolower = name'.map tolower →
      term.map tolower = term'.map tolower →
      matchesSearch name term = matchesSearch name' term') ∧
    matchesSearch "Report.TXT".toList "report".toList = true ∧
    matchesSearch "report".toList "TXT".toList = false ∧
    (∀ name : Str, matchesSearch name [] = true) := by
  have key : ∀ name term : Str, matchesSearch name term = true ↔
      term.map tolower <:+: name.map tolower := fun name term => by
    unfold matchesSearch
    exact find_isSome_iff _ _
  refine ⟨key, ?_, by decide, by decide, ?_⟩
  · intro name name' term term' h1 h2
    unfold matchesSearch
    simp only [h1, h2]
  · intro name
    rw [key]
    exact List.nil_infix

/-- A concrete instance of C3: changing the case of both arguments does not change the
result. -/
theorem matchesSearch_case_witness :
    matchesSearch "Report.TXT".toList "report".toList =
      matchesSearch "REPORT.txt".toList "RePort".toList :=
  matchesSearch_true_iff_lowercase_infix.2.1 "Report.TXT".toList "REPORT.txt".toList
    "report".toList "RePort".toList (by decide) (by decide)

/-- C2: in a well-formed tree whose directories can all be enumerated, the walks of
`fsDisplay` and `fsSearch` from a root directory `D` end, meet the same entries, meet no
path twice, and meet exactly the proper descendants of `D` that are reached by a trail on
which no path (from `D` down to the entry itself) is skipped; no path on the way to a met
entry is skipped, and nothing is met when `D` itself is skipped. -/
theorem walk_visits_exactly_unskipped_descendants (processDir D term : Str) (kids : Forest)
    (hterm : term ≠ []) (hwf : kids.wellFormed = true) (hen : kids.allEnumerable = true)
    (fuel : Nat) (hfuel : kids.dirCount + 1 < fuel) :
    ∃ sd ss, fsDisplay fuel processDir D (some (Node.dir true kids)) = some sd ∧
      fsSearch fuel processDir D term (some (Node.dir true kids)) = some ss ∧
      ss.visited = sd.visited ∧
      (sd.visited.map Entry.path).Nodup ∧
      (∀ q, q ∈ sd.visited.map Entry.path ↔
        ∃ t, Trail D kids t q ∧ ∀ a ∈ t, shouldSkipPath a = false) ∧
      (∀ q ∈ sd.visited.map Entry.path, ∀ t, Trail D kids t q →
        ∀ a ∈ t, shouldSkipPath a = false) ∧
      (shouldSkipPath D = true → sd.visited = []) := by
  obtain ⟨sd, hd1, _, hd3, _⟩ := displayLoop_spec fuel
    ⟨[Line.displaying D], 0, [⟨D, true, kids⟩], []⟩ (by simp only [fuelFor]; omega)
  obtain ⟨ss, hs1, _, hs3, _⟩ := searchLoop_spec term fuel
    ⟨[Line.searching term D], 0, [⟨D, true, kids⟩], []⟩ (by simp only [fuelFor]; omega)
  simp only [visitsOf, List.nil_append, List.append_nil] at hd3 hs3
  have hne : term.isEmpty = false := by
    cases term with
    | nil => exact absurd rfl hterm
    | cons _ _ => rfl
  have hmem : ∀ q, q ∈ (expand D true kids).map Entry.path ↔
      ∃ t, Trail D kids t q ∧ ∀ a ∈ t, shouldSkipPath a = false := by
    intro q
    constructor
    · intro hq
      obtain ⟨e, he, rfl⟩ := List.mem_map.mp hq
      exact trail_of_mem_expand he
    · rintro ⟨t, ht, hc⟩
      obtain ⟨k, hk⟩ := mem_expand_of_trail ht hen hc
      exact List.mem_map.mpr ⟨_, hk, rfl⟩
  refine ⟨{ sd with out := sd.out ++ [Line.total sd.count] },
    { ss with out := ss.out ++ [Line.found ss.count term] }, ?_, ?_, ?_, ?_, ?_, ?_, ?_⟩
  · simp only [fsDisplay, hd1]
  · simp only [fsSearch, hne, Bool.false_eq_true, if_false, hs1]
  · simp only [hd3, hs3]
  · simp only [hd3]
    unfold expand
    cases shouldSkipPath D
    · simp only [Bool.false_eq_true, if_false, if_true]
      exact nodup_scan_append_below hwf D (nodup_below kids hwf D)
    · simp
  · simp only [hd3]
    exact hmem
  · simp only [hd3]
    intro q hq t ht a ha
    obtain ⟨t', ht', hc'⟩ := (hmem q).mp hq
    have hqs : shouldSkipPath q = false := hc' q ht'.last_mem
    cases hsa : shouldSkipPath a
    · rfl
    · rw [shouldSkipPath_mono (ht.prefixes hwf a ha) hsa] at hqs
      exact absurd hqs (by decide)
  · intro hD
    simp only [hd3, expand, hD, if_true]

/-- Witness of C2 on the sample tree rooted at `/r`. -/
theorem walk_sample_witness :
    ∃ sd ss, fsDisplay 4 "/".toList "/r".toList (some (Node.dir true sampleTree)) = some sd ∧
      fsSearch 4 "/".toList "/r".toList "txt".toList (some (Node.dir true sampleTree)) =
        some ss ∧
      ss.visited = sd.visited ∧
      (sd.visited.map Entry.path).Nodup ∧
      (∀ q, q ∈ sd.visited.map Entry.path ↔
        ∃ t, Trail "/r".toList sampleTree t q ∧ ∀ a ∈ t, shouldSkipPath a = false) ∧
      (∀ q ∈ sd.visited.map Entry.path, ∀ t, Trail "/r".toList sampleTree t q →
        ∀ a ∈ t, shouldSkipPath a = false) ∧
      (shouldSkipPath "/r".toList = true → sd.visited = []) :=
  walk_visits_exactly_unskipped_descendants "/".toList "/r".toList "txt".toList sampleTree
    (by decide) (by decide) (by decide) 4 (by decide)

/-! ## C4 to C9: the session operations -/

/-- C4 (evaluation at the failing input): from the initial session at `/`, `cd /home/u/docs`
succeeds; then `rm /home/u` succeeds and `currentWorkingDirectory`, still `/home/u/docs`,
no longer exists. Likewise after `cd /home/u/docs`, `mv /home/u /tmp/v` succeeds and the
current working directory no longer exists. -/
theorem fsDelete_of_ancestor_removes_cwd :
    (let s1 := (fsCd Posix.fileSystem sampleEnv "/home/u/docs".toList
        ⟨sampleWorld, "/".toList⟩)
     let r := fsDelete Posix.fileSystem "/home/u".toList s1.2
     s1.1 = Outcome.ok ∧ r.1 = Outcome.ok ∧
       r.2.currentWorkingDirectory = "/home/u/docs".toList ∧
       Posix.pathExists r.2.world r.2.currentWorkingDirectory = false) ∧
    (let s1 := (fsCd Posix.fileSystem sampleEnv "/home/u/docs".toList
        ⟨sampleWorld, "/".toList⟩)
     let r := fsRename Posix.fileSystem "/home/u".toList "/tmp/v".toList s1.2
     s1.1 = Outcome.ok ∧ r.1 = Outcome.ok ∧
       r.2.currentWorkingDirectory = "/home/u/docs".toList ∧
       Posix.pathExists r.2.world r.2.currentWorkingDirectory = false) := by
  decide

/-- C5: whatever the session and the argument of `fsCd`: when the candidate does not
exist the result is `NotFound`, when it exists and is not a directory `NotADirectory`, when
it is a directory whose canonical form cannot be enumerated `PermissionDenied`, each time
with the session as it was; every failure leaves the session as it was; and a success
either is the early return of `.` with the session as it was, or sets
`currentWorkingDirectory` to the canonical form of the candidate and nothing else. -/
theorem fsCd_checks_in_order_and_commits_canonical {W : Type} (fsys : FileSystem W)
    (env : Env) (directory : Str) (s : Session W) :
    (∀ newPath, cdTarget env s.currentWorkingDirectory directory = CdTarget.candidate newPath →
      (fsys.pathExists s.world newPath = false →
        fsCd fsys env directory s = (Outcome.fail Err.NotFound, s)) ∧
      (fsys.pathExists s.world newPath = true → fsys.isDirectory s.world newPath = false →
        fsCd fsys env directory s = (Outcome.fail Err.NotADirectory, s)) ∧
      (∀ canonicalPath, fsys.pathExists s.world newPath = true →
        fsys.isDirectory s.world newPath = true →
        fsys.canonical s.world newPath = some canonicalPath →
        fsys.canEnumerate s.world canonicalPath = false →
        fsCd fsys env directory s = (Outcome.fail Err.PermissionDenied, s))) ∧
    (∀ e, (fsCd fsys env directory s).1 = Outcome.fail e → (fsCd fsys env directory s).2 = s) ∧
    ((fsCd fsys env directory s).1 = Outcome.ok →
      (directory = ".".toList ∧ (fsCd fsys env directory s).2 = s) ∨
      ∃ newPath canonicalPath,
        cdTarget env s.currentWorkingDirectory directory = CdTarget.candidate newPath ∧
        fsys.canonical s.world newPath = some canonicalPath ∧
        (fsCd fsys env directory s).2 =
          { s with currentWorkingDirectory := canonicalPath }) := by
  refine ⟨?_, ?_, ?_⟩
  · intro newPath hc
    refine ⟨?_, ?_, ?_⟩
    · intro h1
      simp [fsCd, hc, h1]
    · intro h1 h2
      simp [fsCd, hc, h1, h2]
    · intro cp h1 h2 h3 h4
      simp [fsCd, hc, h1, h2, h3, h4]
  · intro e
    unfold fsCd
    cases cdTarget env s.currentWorkingDirectory directory with
    | stay => simp
    | noHome => simp
    | candidate newPath =>
      simp only
      cases fsys.pathExists s.world newPath
      · simp
      · cases fsys.isDirectory s.world newPath
        · simp
        · cases fsys.canonical s.world newPath with
          | none => simp
          | some cp =>
            cases h : fsys.canEnumerate s.world cp <;> simp [h]
  · unfold fsCd
    cases hc : cdTarget env s.currentWorkingDirectory directory with
    | stay =>
      intro _
      left
      refine ⟨?_, rfl⟩
      unfold cdTarget at hc
      by_cases h1 : directory = "..".toList
      · simp [h1] at hc
      · by_cases h2 : directory = ".".toList
        · exact h2
        · simp only [h1, h2, if_false] at hc
          by_cases h3 : directory = "~".toList
          · simp only [h3, if_true] at hc
            cases hu : env.USERPROFILE <;> cases hh : env.HOME <;> simp [hu, hh] at hc
          · simp only [h3, if_false] at hc
            split at hc <;> exact CdTarget.noConfusion hc
    | noHome => simp
    | candidate newPath =>
      simp only
      cases fsys.pathExists s.world newPath
      · simp
      · cases fsys.isDirectory s.world newPath
        · simp
        · cases hcp : fsys.canonical s.world newPath with
          | none => simp
          | some cp =>
            cases h : fsys.canEnumerate s.world cp
            · simp [h]
            · intro _
              right
              exact ⟨newPath, cp, rfl, hcp, by simp [h]⟩

/-- Witness of C5, the scenario of the specification: at `/home`, `cd nonexistent` reports
`NotFound` and leaves the current directory at `/home`. -/
theorem fsCd_nonexistent_witness :
    fsCd Posix.fileSystem sampleEnv "nonexistent".toList ⟨sampleWorld, "/home".toList⟩ =
      (Outcome.fail Err.NotFound, ⟨sampleWorld, "/home".toList⟩) :=
  ((fsCd_checks_in_order_and_commits_canonical Posix.fileSystem sampleEnv "nonexistent".toList
    ⟨sampleWorld, "/home".toList⟩).1 "/home/nonexistent".toList (by decide)).1 (by decide)

/-- C6: `cd .` repeated any number of times returns true each time and leaves the session,
whatever it is, as it was. -/
theorem fsCd_dot_repeated {W : Type} (fsys : FileSystem W) (env : Env) (s : Session W)
    (n : Nat) :
    runCd fsys env (List.replicate n ".".toList) s = (List.replicate n Outcome.ok, s) ∧
    fsCd fsys env ".".toList s = (Outcome.ok, s) := by
  have h1 : fsCd fsys env ".".toList s = (Outcome.ok, s) := by
    have hc : cdTarget env s.currentWorkingDirectory ".".toList = CdTarget.stay := by
      unfold cdTarget
      rw [if_neg (by decide), if_pos rfl]
    simp only [fsCd, hc]
  refine ⟨?_, h1⟩
  induction n with
  | zero => rfl
  | succ n ih => simp only [List.replicate_succ, runCd, h1, ih]

/-- C7: when the parent of the current working directory exists, is a directory, has the
canonical form `canonicalPath` and that can be enumerated, `cd ..` succeeds and sets the
current working directory to `canonicalPath`; so when the current directory is a root,
equal to its own parent and canonical form, `cd ..` succeeds and stays there. -/
theorem fsCd_dotdot_moves_to_parent {W : Type} (fsys : FileSystem W) (env : Env)
    (s : Session W) (canonicalPath : Str)
    (hex : fsys.pathExists s.world (parentPath s.currentWorkingDirectory) = true)
    (hdir : fsys.isDirectory s.world (parentPath s.currentWorkingDirectory) = true)
    (hcan : fsys.canonical s.world (parentPath s.currentWorkingDirectory) = some canonicalPath)
    (hen : fsys.canEnumerate s.world canonicalPath = true) :
    fsCd fsys env "..".toList s =
      (Outcome.ok, { s with currentWorkingDirectory := canonicalPath }) ∧
    (parentPath s.currentWorkingDirectory = s.currentWorkingDirectory →
      canonicalPath = s.currentWorkingDirectory →
      fsCd fsys env "..".toList s = (Outcome.ok, s)) := by
  have hc : cdTarget env s.currentWorkingDirectory "..".toList =
      CdTarget.candidate (parentPath s.currentWorkingDirectory) := by
    unfold cdTarget
    rw [if_pos rfl]
  have h1 : fsCd fsys env "..".toList s =
      (Outcome.ok, { s with currentWorkingDirectory := canonicalPath }) := by
    unfold fsCd
    rw [hc]
    simp [hex, hdir, hcan, hen]
  refine ⟨h1, ?_⟩
  intro _ h3
  rw [h1, h3]

/-- Witness of C7: from `/home/u`, `cd ..` moves to `/home`; from the root `/`, whose
parent path is `/`, `cd ..` succeeds and stays at `/`. -/
theorem fsCd_dotdot_witness :
    fsCd Posix.fileSystem sampleEnv "..".toList ⟨sampleWorld, "/home/u".toList⟩ =
      (Outcome.ok, ⟨sampleWorld, "/home".toList⟩) ∧
    parentPath "/".toList = "/".toList ∧
    fsCd Posix.fileSystem sampleEnv "..".toList ⟨sampleWorld, "/".toList⟩ =
      (Outcome.ok, ⟨sampleWorld, "/".toList⟩) :=
  ⟨(fsCd_dotdot_moves_to_parent Posix.fileSystem sampleEnv ⟨sampleWorld, "/home/u".toList⟩
      "/home".toList (by decide) (by decide) (by decide) (by decide)).1,
    by decide,
    (fsCd_dotdot_moves_to_parent Posix.fileSystem sampleEnv ⟨sampleWorld, "/".toList⟩
      "/".toList (by decide) (by decide) (by decide) (by decide)).2 (by decide) rfl⟩

/-- C8: when the target of `fsDelete` exists and has the same canonical form as the
current working directory, `fsDelete` returns false with `RefusesToDeleteCurrentDirectory`
and the session (file system and current directory) is as it was. -/
theorem fsDelete_refuses_current_directory {W : Type} (fsys : FileSystem W) (path : Str)
    (s : Session W) (canonicalPath : Str)
    (hex : fsys.pathExists s.world (targetOf s path) = true)
    (htarget : fsys.canonical s.world (targetOf s path) = some canonicalPath)
    (hcwd : fsys.canonical s.world s.currentWorkingDirectory = some canonicalPath) :
    fsDelete fsys path s = (Outcome.fail Err.RefusesToDeleteCurrentDirectory, s) := by
  simp [fsDelete, getCurrentDirectory, hex, htarget, hcwd]

/-- Witness of C8: at `/home/u`, the arguments `.`, `../u`, `docs/..` and `/home/u` are
all refused. -/
theorem fsDelete_refuses_witness :
    fsDelete Posix.fileSystem ".".toList ⟨sampleWorld, "/home/u".toList⟩ =
      (Outcome.fail Err.RefusesToDeleteCurrentDirectory, ⟨sampleWorld, "/home/u".toList⟩) ∧
    fsDelete Posix.fileSystem "../u".toList ⟨sampleWorld, "/home/u".toList⟩ =
      (Outcome.fail Err.RefusesToDeleteCurrentDirectory, ⟨sampleWorld, "/home/u".toList⟩) ∧
    fsDelete Posix.fileSystem "docs/..".toList ⟨sampleWorld, "/home/u".toList⟩ =
      (Outcome.fail Err.RefusesToDeleteCurrentDirectory, ⟨sampleWorld, "/home/u".toList⟩) ∧
    fsDelete Posix.fileSystem "/home/u".toList ⟨sampleWorld, "/home/u".toList⟩ =
      (Outcome.fail Err.RefusesToDeleteCurrentDirectory, ⟨sampleWorld, "/home/u".toList⟩) :=
  ⟨fsDelete_refuses_current_directory Posix.fileSystem ".".toList
      ⟨sampleWorld, "/home/u".toList⟩ "/home/u".toList (by decide) (by decide) (by decide),
    fsDelete_refuses_current_directory Posix.fileSystem "../u".toList
      ⟨sampleWorld, "/home/u".toList⟩ "/home/u".toList (by decide) (by decide) (by decide),
    fsDelete_refuses_current_directory Posix.fileSystem "docs/..".toList
      ⟨sampleWorld, "/home/u".toList⟩ "/home/u".toList (by decide) (by decide) (by decide),
    fsDelete_refuses_current_directory Posix.fileSystem "/home/u".toList
      ⟨sampleWorld, "/home/u".toList⟩ "/home/u".toList (by decide) (by decide) (by decide)⟩

/-- C9: `fsRename` tests the source, then the destination, then the current directory:
when source and destination both exist it fails with `AlreadyExists`, and when the source
does not exist it fails with `NotFound` whatever the destination; the session is as it
was in both cases. -/
theorem fsRename_guard_order {W : Type} (fsys : FileSystem W) (oldPath newPath : Str)
    (s : Session W) :
    (fsys.pathExists s.world (targetOf s oldPath) = true →
      fsys.pathExists s.world (targetOf s newPath) = true →
      fsRename fsys oldPath newPath s = (Outcome.fail Err.AlreadyExists, s)) ∧
    (fsys.pathExists s.world (targetOf s oldPath) = false →
      fsRename fsys oldPath newPath s = (Outcome.fail Err.NotFound, s)) := by
  refine ⟨?_, ?_⟩
  · intro h1 h2
    simp [fsRename, h1, h2]
  · intro h1
    simp [fsRename, h1]

/-- Witness of C9: at `/home/u`, `mv a.txt a.txt` fails with `AlreadyExists`; so does
`mv . docs`, whose source is the current directory; `mv nothing docs` fails with
`NotFound`. -/
theorem fsRename_guard_witness :
    fsRename Posix.fileSystem "a.txt".toList "a.txt".toList ⟨sampleWorld, "/home/u".toList⟩ =
      (Outcome.fail Err.AlreadyExists, ⟨sampleWorld, "/home/u".toList⟩) ∧
    fsRename Posix.fileSystem ".".toList "docs".toList ⟨sampleWorld, "/home/u".toList⟩ =
      (Outcome.fail Err.AlreadyExists, ⟨sampleWorld, "/home/u".toList⟩) ∧
    fsRename Posix.fileSystem "nothing".toList "docs".toList ⟨sampleWorld, "/home/u".toList⟩ =
      (Outcome.fail Err.NotFound, ⟨sampleWorld, "/home/u".toList⟩) :=
  ⟨(fsRename_guard_order Posix.fileSystem "a.txt".toList "a.txt".toList
      ⟨sampleWorld, "/home/u".toList⟩).1 (by decide) (by decide),
    (fsRename_guard_order Posix.fileSystem ".".toList "docs".toList
      ⟨sampleWorld, "/home/u".toList⟩).1 (by decide) (by decide),
    (fsRename_guard_order Posix.fileSystem "nothing".toList "docs".toList
      ⟨sampleWorld, "/home/u".toList⟩).2 (by decide)⟩

/-! ## The POSIX model: lemmas on trees -/

namespace Posix

theorem nodeAt_append (node : Node) (a b : List Str) :
    nodeAt node (a ++ b) = (nodeAt node a).bind (fun nd => nodeAt nd b) := by
  induction a generalizing node with
  | nil => simp [nodeAt]
  | cons n ns ih =>
    cases node with
    | file => simp [nodeAt]
    | dir en kids =>
      simp only [List.cons_append, nodeAt]
      cases kids.find? n with
      | none => simp
      | some child => simp [ih]

theorem find?_modifyAt_cons (f : Forest → Forest) (n : Str) (ns : List Str) (F : Forest)
    (m : Str) :
    (F.modifyAt f (n :: ns)).find? m =
      if m = n then
        (match F.find? n with
          | some (Node.dir e k) => some (Node.dir e (k.modifyAt f ns))
          | other => other)
      else F.find? m := by
  induction F with
  | nil => simp [Forest.modifyAt, Forest.find?]
  | file a rest ih =>
    by_cases han : a = n
    · subst han
      by_cases hm : m = a
      · subst hm; simp [Forest.modifyAt, Forest.find?]
      · simp [Forest.modifyAt, Forest.find?, hm]
    · by_cases hm : m = n
      · subst hm
        simp only [Forest.modifyAt, han, if_false, Forest.find?, ih, if_true]
      · simp only [Forest.modifyAt, han, if_false, Forest.find?, ih, hm]
  | dir a e k rest _ ih =>
    by_cases han : a = n
    · subst han
      by_cases hm : m = a
      · subst hm; simp [Forest.modifyAt, Forest.find?]
      · have hma : ¬ a = m := fun h => hm h.symm
        simp only [Forest.modifyAt, Forest.find?, hm, if_true, if_false, hma]
    · by_cases hm : m = n
      · subst hm
        simp only [Forest.modifyAt, han, if_false, Forest.find?, ih, if_true]
      · simp only [Forest.modifyAt, han, if_false, Forest.find?, ih, hm]

theorem nodeAt_modifyAt_self (f : Forest → Forest) (loc : List Str) :
    ∀ (en : Bool) (kids : Forest) (en' : Bool) (L : Forest),
      nodeAt (Node.dir en kids) loc = some (Node.dir en' L) →
      nodeAt (Node.dir en (kids.modifyAt f loc)) loc = some (Node.dir en' (f L)) := by
  induction loc with
  | nil =>
    intro en kids en' L h
    simp only [nodeAt, Option.some.injEq, Node.dir.injEq] at h
    simp [nodeAt, Forest.modifyAt, h.1, h.2]
  | cons n ns ih =>
    intro en kids en' L h
    simp only [nodeAt] at h
    simp only [nodeAt, find?_modifyAt_cons, if_true]
    cases hf : kids.find? n with
    | none => simp [hf] at h
    | some child =>
      rw [hf] at h
      cases child with
      | file =>
        cases ns with
        | nil => simp [nodeAt] at h
        | cons a as => simp [nodeAt] at h
      | dir e k =>
        simp only at h ⊢
        exact ih e k en' L h

theorem kind_nodeAt_modifyAt (f : Forest → Forest) (name : Str) (newNode : Node)
    (hleaf : ∀ a as, nodeAt newNode (a :: as) = none) (loc : List Str) :
    ∀ (en : Bool) (kids : Forest) (en' : Bool) (L : Forest) (p : List Str),
      nodeAt (Node.dir en kids) loc = some (Node.dir en' L) →
      L.find? name = none →
      (f L).find? name = some newNode →
      (∀ m, m ≠ name → (f L).find? m = L.find? m) →
      (nodeAt (Node.dir en (kids.modifyAt f loc)) p).map Node.kind =
        if p = loc ++ [name] then some newNode.kind
        else (nodeAt (Node.dir en kids) p).map Node.kind := by
  induction loc with
  | nil =>
    intro en kids en' L p h hno hnew hother
    simp only [nodeAt, Option.some.injEq, Node.dir.injEq] at h
    obtain ⟨_, rfl⟩ := h
    simp only [Forest.modifyAt, List.nil_append]
    cases p with
    | nil => simp [nodeAt, Node.kind]
    | cons m ps =>
      by_cases hm : m = name
      · subst hm
        simp only [nodeAt, hnew, hno]
        cases ps with
        | nil => simp [nodeAt]
        | cons a as => simp [hleaf]
      · have : ¬ (m :: ps = [name]) := by
          intro hh
          injection hh with h1 _
          exact hm h1
        simp only [nodeAt, hother m hm, this, if_false]
  | cons n ns ih =>
    intro en kids en' L p h hno hnew hother
    simp only [nodeAt] at h
    cases hf : kids.find? n with
    | none => simp [hf] at h
    | some child =>
      rw [hf] at h
      cases child with
      | file =>
        cases ns with
        | nil => simp [nodeAt] at h
        | cons a as => simp [nodeAt] at h
      | dir e k =>
        simp only at h
        cases p with
        | nil => simp [nodeAt, Node.kind]
        | cons m ps =>
          by_cases hm : m = n
          · subst hm
            simp only [nodeAt, find?_modifyAt_cons, if_true, hf]
            rw [ih e k en' L ps h hno hnew hother]
            simp
          · have : ¬ (m :: ps = n :: ns ++ [name]) := by
              intro hh
              simp only [List.cons_append, List.cons.injEq] at hh
              exact hm hh.1
            simp only [nodeAt, find?_modifyAt_cons, hm, if_false, this]

theorem modifyAt_modifyAt (f g : Forest → Forest) (loc : List Str) :
    ∀ F : Forest, (F.modifyAt f loc).modifyAt g loc = F.modifyAt (fun x => g (f x)) loc := by
  induction loc with
  | nil => intro F; simp [Forest.modifyAt]
  | cons n ns ih =>
    intro F
    induction F with
    | nil => simp [Forest.modifyAt]
    | file a rest ihr =>
      by_cases han : a = n
      · simp [Forest.modifyAt, han]
      · simp [Forest.modifyAt, han, ihr]
    | dir a e k rest _ ihr =>
      by_cases han : a = n
      · simp [Forest.modifyAt, han, ih]
      · simp [Forest.modifyAt, han, ihr]

theorem modifyAt_eq_self (f : Forest → Forest) (loc : List Str) :
    ∀ (en : Bool) (kids : Forest) (en' : Bool) (L : Forest),
      nodeAt (Node.dir en kids) loc = some (Node.dir en' L) → f L = L →
      kids.modifyAt f loc = kids := by
  induction loc with
  | nil =>
    intro en kids en' L h hf
    simp only [nodeAt, Option.some.injEq, Node.dir.injEq] at h
    obtain ⟨_, rfl⟩ := h
    simp [Forest.modifyAt, hf]
  | cons n ns ih =>
    intro en kids en' L h hf
    simp only [nodeAt] at h
    induction kids with
    | nil => simp [Forest.modifyAt]
    | file a rest ihr =>
      by_cases han : a = n
      · simp [Forest.modifyAt, han]
      · simp only [Forest.find?, han, if_false] at h
        simp [Forest.modifyAt, han, ihr h]
    | dir a e k rest _ ihr =>
      by_cases han : a = n
      · simp only [Forest.find?, han, if_true] at h
        simp [Forest.modifyAt, han, ih e k en' L h hf]
      · simp only [Forest.find?, han, if_false] at h
        simp [Forest.modifyAt, han, ihr h]

theorem find?_addDir_self (x : Str) (en : Bool) (c F : Forest) (h : F.find? x = none) :
    (Forest.addDir x en c F).find? x = some (Node.dir en c) := by
  induction F with
  | nil => simp [Forest.addDir, Forest.find?]
  | file a rest ih =>
    by_cases hax : a = x
    · simp [Forest.find?, hax] at h
    · simp only [Forest.find?, hax, if_false] at h
      simp [Forest.addDir, Forest.find?, hax, ih h]
  | dir a e k rest _ ih =>
    by_cases hax : a = x
    · simp [Forest.find?, hax] at h
    · simp only [Forest.find?, hax, if_false] at h
      simp [Forest.addDir, Forest.find?, hax, ih h]

theorem find?_addDir_other (x : Str) (en : Bool) (c F : Forest) (m : Str) (h : m ≠ x) :
    (Forest.addDir x en c F).find? m = F.find? m := by
  induction F with
  | nil => simp [Forest.addDir, Forest.find?, Ne.symm h]
  | file a rest ih => simp [Forest.addDir, Forest.find?, ih]
  | dir a e k rest _ ih => simp [Forest.addDir, Forest.find?, ih]

theorem find?_addFile_other (x : Str) (F : Forest) (m : Str) (h : m ≠ x) :
    (F.addFile x).find? m = F.find? m := by
  induction F with
  | nil => simp [Forest.addFile, Forest.find?, Ne.symm h]
  | file a rest ih => simp [Forest.addFile, Forest.find?, ih]
  | dir a e k rest _ ih => simp [Forest.addFile, Forest.find?, ih]

/-! ## The POSIX model: lemmas on path resolution -/

theorem splitPath_ne_nil (p : Str) : splitPath p ≠ [] := by
  cases p with
  | nil => simp [splitPath]
  | cons c t =>
    unfold splitPath
    by_cases hc : c = '/'
    · simp [hc]
    · simp only [hc, if_false]
      cases splitPath t <;> simp

theorem splitPath_append_sep (a b : Str) :
    splitPath (a ++ '/' :: b) = splitPath a ++ splitPath b := by
  induction a with
  | nil => simp [splitPath]
  | cons c t ih =>
    by_cases hc : c = '/'
    · simp [splitPath, hc, ih]
    · simp only [List.cons_append, splitPath, hc, if_false]
      have ih' : splitPath (t.append ('/' :: b)) = splitPath t ++ splitPath b := ih
      rw [ih']
      cases hs : splitPath t with
      | nil => exact absurd hs (splitPath_ne_nil t)
      | cons seg segs => rfl

theorem walkFrom_append (w : Forest) (A B : List Str) :
    ∀ cur, walkFrom w cur (A ++ B) = (walkFrom w cur A).bind (fun c => walkFrom w c B) := by
  induction A with
  | nil => intro cur; simp [walkFrom]
  | cons seg segs ih =>
    intro cur
    simp only [List.cons_append, walkFrom]
    split_ifs
    · exact ih _
    · exact ih _
    · exact ih _
    · rfl
    · rfl

theorem mkdirsFrom_append_of_walk (deny : List (List Str)) (w : Forest) (A B : List Str)
    (fl : Bool) :
    ∀ cur cur', walkFrom w cur A = some cur' →
      mkdirsFrom deny w cur (A ++ B) fl = mkdirsFrom deny w cur' B fl := by
  induction A with
  | nil =>
    intro cur cur' h
    simp only [walkFrom, Option.some.injEq] at h
    simp [h]
  | cons seg segs ih =>
    intro cur cur' h
    simp only [walkFrom] at h
    simp only [List.cons_append, mkdirsFrom]
    split_ifs at h ⊢ with h1 h2 h3 h4
    · exact ih _ _ h
    · exact ih _ _ h
    · exact ih _ _ h

theorem walkFrom_mono {w w' : Forest} (h : Extends w w') (segs : List Str) :
    ∀ cur r, walkFrom w cur segs = some r → walkFrom w' cur segs = some r := by
  induction segs with
  | nil => intro cur r hr; simpa [walkFrom] using hr
  | cons seg segs ih =>
    intro cur r hr
    simp only [walkFrom] at hr ⊢
    split_ifs at hr with h1 h2 h3 h4
    · rw [if_pos (h _ _ h1), if_pos h2]; exact ih _ _ hr
    · rw [if_pos (h _ _ h1), if_neg h2, if_pos h3]; exact ih _ _ hr
    · obtain ⟨k, hk⟩ := Option.isSome_iff_exists.mp h4
      rw [if_pos (h _ _ h1), if_neg h2, if_neg h3, if_pos (by rw [h _ _ hk]; rfl)]
      exact ih _ _ hr

theorem base_eq_dropLast_append {c : Str} (hc : c ≠ []) :
    base c = (base c).dropLast ++ ['/'] := by
  by_cases hf : hasFilename c = true
  · simp [base, hf]
  · have hlast : c.getLast hc = '/' := by
      unfold hasFilename at hf
      rw [List.getLast?_eq_getLast c hc] at hf
      simpa using hf
    have hb : base c = c := by simp [base, hf]
    have hd := List.dropLast_append_getLast hc
    rw [hlast] at hd
    rw [hb]
    exact hd.symm

theorem walk_base_of_resolve {w : Forest} {c : Str} {loc : List Str}
    (h : resolve w c = some loc) :
    walkFrom w [] (splitPath (base c).dropLast) = some loc := by
  unfold resolve at h
  have hc : c ≠ [] := by
    intro hc
    simp [hc] at h
  have hne : c.isEmpty = false := by
    cases c with
    | nil => exact absurd rfl hc
    | cons _ _ => rfl
  simp only [hne, Bool.false_eq_true, if_false] at h
  by_cases hf : hasFilename c = true
  · simp only [base, hf, if_true, List.dropLast_concat]
    exact h
  · have hb := base_eq_dropLast_append hc
    have hbc : base c = c := by simp [base, hf]
    rw [hbc] at hb ⊢
    rw [hb, splitPath_append_sep, walkFrom_append] at h
    cases hw : walkFrom w [] (splitPath c.dropLast) with
    | none => simp [hw] at h
    | some l =>
      simp only [hw, Option.some_bind, splitPath, walkFrom] at h
      by_cases h1 : kindAt w l = some Kind.directory
      · simpa [h1] using h
      · simp [h1] at h

theorem renderNames_append (a b : List Str) :
    renderNames (a ++ b) = renderNames a ++ renderNames b := by
  induction a with
  | nil => simp [renderNames]
  | cons n ns ih => simp [renderNames, ih]

theorem render_append_ne (loc : List Str) (x y : Str) :
    render (loc ++ [x, y]) ≠ render loc := by
  intro h
  have hlen := congrArg List.length h
  cases loc with
  | nil => simp [render, renderNames] at hlen
  | cons n ns =>
    simp only [render, List.cons_append, List.isEmpty_cons, Bool.false_eq_true, if_false] at hlen
    rw [← List.cons_append, renderNames_append] at hlen
    simp [renderNames] at hlen

theorem resolve_mono {w w' : Forest} (h : Extends w w') {c : Str} {loc : List Str}
    (hr : resolve w c = some loc) : resolve w' c = some loc := by
  unfold resolve at hr ⊢
  split_ifs at hr ⊢ with hc
  exact walkFrom_mono h _ _ _ hr

theorem nodeAt_eq_none_of_kindAt {w : Forest} {p : List Str} (h : kindAt w p = none) :
    nodeAt (rootNode w) p = none := by
  unfold kindAt at h
  exact Option.map_eq_none'.mp h

/-- What adding a leaf named `name` to the directory at `loc` does to the kinds. -/
theorem kindAt_modifyAt_add (f : Forest → Forest) (name : Str) (newNode : Node)
    (hleaf : ∀ a as, nodeAt newNode (a :: as) = none) {w : Forest} {loc : List Str}
    {en : Bool} {L : Forest} (hdir : nodeAt (rootNode w) loc = some (Node.dir en L))
    (hno : L.find? name = none) (hnew : (f L).find? name = some newNode)
    (hother : ∀ m, m ≠ name → (f L).find? m = L.find? m) :
    (∀ p, kindAt (w.modifyAt f loc) p =
      if p = loc ++ [name] then some newNode.kind else kindAt w p) ∧
    nodeAt (rootNode (w.modifyAt f loc)) loc = some (Node.dir en (f L)) ∧
    nodeAt (rootNode (w.modifyAt f loc)) (loc ++ [name]) = some newNode ∧
    kindAt w (loc ++ [name]) = none ∧
    Extends w (w.modifyAt f loc) := by
  have h1 : ∀ p, kindAt (w.modifyAt f loc) p =
      if p = loc ++ [name] then some newNode.kind else kindAt w p := fun p =>
    kind_nodeAt_modifyAt f name newNode hleaf loc true w en L p hdir hno hnew hother
  have h2 : nodeAt (rootNode (w.modifyAt f loc)) loc = some (Node.dir en (f L)) :=
    nodeAt_modifyAt_self f loc true w en L hdir
  have h3 : kindAt w (loc ++ [name]) = none := by
    unfold kindAt
    rw [nodeAt_append, hdir]
    simp [nodeAt, hno]
  refine ⟨h1, h2, ?_, h3, ?_⟩
  · rw [nodeAt_append, h2]
    simp [nodeAt, hnew]
  · intro p k hk
    rw [h1 p]
    by_cases hp : p = loc ++ [name]
    · rw [hp, h3] at hk
      exact absurd hk (by simp)
    · rw [if_neg hp]
      exact hk

theorem isAbsolute_xy : isAbsolute "x/y.txt".toList = false := by decide

theorem pathAppend_rel (d : Str) {q : Str} (h : isAbsolute q = false) :
    pathAppend d q = base d ++ q := by
  unfold pathAppend base
  rw [h]
  by_cases hf : hasFilename d = true <;> simp [hf]

theorem parentPath_xy (c : Str) :
    parentPath (c ++ "/x/y.txt".toList) = c ++ "/x".toList := by
  have h1 : hasRelativePath (c ++ "/x/y.txt".toList) = true := by
    simp [hasRelativePath]
  unfold parentPath
  rw [if_pos h1]
  simp [List.dropWhile]

end Posix

/-! ## C10 -/

/-- C10, amended: in the POSIX model, when the current working directory resolves to a
directory that has no entry named `x`, of any kind, and the process can create entries in
that directory and in the directory `x` once it is created, `fsCreate("x/y.txt", false)`
succeeds and creates the file, `fsDelete("x/y.txt")` then succeeds, and the final file
system is the original one with one entry added to the current directory: the directory
`x`, present and empty; every other location holds what it held before. -/
theorem create_then_delete_leaves_empty_parent (w : World) (c : Str) (loc : List Str)
    (en : Bool) (kids : Forest)
    (hres : Posix.resolve w.root c = some loc)
    (hdir : Posix.nodeAt (Posix.rootNode w.root) loc = some (Node.dir en kids))
    (hx : kids.find? "x".toList = none)
    (hw : loc ∉ w.unwritable) (hwx : loc ++ ["x".toList] ∉ w.unwritable) :
    ∃ w1 w2,
      fsCreate Posix.fileSystem "x/y.txt".toList false ⟨w, c⟩ = (Outcome.ok, ⟨w1, c⟩) ∧
      Posix.kindAt w1.root (loc ++ ["x".toList, "y.txt".toList]) = some Kind.file ∧
      fsDelete Posix.fileSystem "x/y.txt".toList ⟨w1, c⟩ = (Outcome.ok, ⟨w2, c⟩) ∧
      Posix.nodeAt (Posix.rootNode w2.root) (loc ++ ["x".toList]) =
        some (Node.dir true Forest.nil) ∧
      (∀ p, p ≠ loc ++ ["x".toList] → Posix.kindAt w2.root p = Posix.kindAt w.root p) ∧
      w2 = ⟨w.root.modifyAt (Forest.addDir "x".toList true Forest.nil) loc, w.unwritable⟩ := by
  obtain ⟨r, deny⟩ := w
  dsimp only at hres hdir hw hwx ⊢
  -- the two states after `r`
  obtain ⟨hK1, hN1, hN1x, hKx, hE1⟩ :=
    Posix.kindAt_modifyAt_add (Forest.addDir "x".toList true Forest.nil) "x".toList
      (Node.dir true Forest.nil) (fun a as => by simp [Posix.nodeAt, Forest.find?]) hdir hx
      (Posix.find?_addDir_self _ _ _ _ hx)
      (fun m hm => Posix.find?_addDir_other _ _ _ _ m hm)
  generalize hw1 : r.modifyAt (Forest.addDir "x".toList true Forest.nil) loc = wa at *
  obtain ⟨hK2, hN2, hN2y, hKy, hE2⟩ :=
    Posix.kindAt_modifyAt_add (Forest.addFile "y.txt".toList) "y.txt".toList Node.file
      (fun a as => rfl) hN1x (by rfl) (by rfl)
      (fun m hm => Posix.find?_addFile_other _ _ m hm)
  have hback : (wa.modifyAt (Forest.addFile "y.txt".toList) (loc ++ ["x".toList])).modifyAt
      (Forest.erase "y.txt".toList) (loc ++ ["x".toList]) = wa := by
    rw [Posix.modifyAt_modifyAt]
    exact Posix.modifyAt_eq_self _ _ true wa true Forest.nil hN1x (by decide)
  generalize hw2 : wa.modifyAt (Forest.addFile "y.txt".toList) (loc ++ ["x".toList]) = wb at *
  -- kinds at the locations that matter
  have hd0 : Posix.kindAt r loc = some Kind.directory := by
    simp [Posix.kindAt, hdir, Node.kind]
  have hd1 : Posix.kindAt wa loc = some Kind.directory := hE1 _ _ hd0
  have hd2 : Posix.kindAt wb loc = some Kind.directory := hE2 _ _ hd1
  have hx1 : Posix.kindAt wa (loc ++ ["x".toList]) = some Kind.directory := by
    rw [hK1]; simp [Node.kind]
  have hx2 : Posix.kindAt wb (loc ++ ["x".toList]) = some Kind.directory := hE2 _ _ hx1
  have hy2 : Posix.kindAt wb (loc ++ ["x".toList] ++ ["y.txt".toList]) = some Kind.file := by
    rw [hK2]; simp [Node.kind]
  -- the strings
  have hc : c ≠ [] := by
    intro h0
    simp [Posix.resolve, h0] at hres
  have hb := Posix.base_eq_dropLast_append hc
  have hW0 := Posix.walk_base_of_resolve hres
  have hW1 := Posix.walk_base_of_resolve (Posix.resolve_mono hE1 hres)
  have hW2 := Posix.walk_base_of_resolve (Posix.resolve_mono hE2 (Posix.resolve_mono hE1 hres))
  have hR2 : Posix.resolve wb c = some loc := Posix.resolve_mono hE2 (Posix.resolve_mono hE1 hres)
  generalize hc' : (base c).dropLast = c' at *
  have htarget : ∀ v : World, targetOf (⟨v, c⟩ : Session World) "x/y.txt".toList =
      c' ++ "/x/y.txt".toList := by
    intro v
    simp only [targetOf, getCurrentDirectory, Posix.isAbsolute_xy, Bool.false_eq_true, if_false]
    rw [Posix.pathAppend_rel c Posix.isAbsolute_xy, hb]
    simp
  have hsplit : Posix.splitPath (c' ++ "/x/y.txt".toList) =
      Posix.splitPath c' ++ ["x".toList, "y.txt".toList] := by
    have : c' ++ "/x/y.txt".toList = c' ++ '/' :: "x/y.txt".toList := rfl
    rw [this, Posix.splitPath_append_sep]
    rfl
  have hsplitx : Posix.splitPath (c' ++ "/x".toList) =
      Posix.splitPath c' ++ ["x".toList] := by
    have : c' ++ "/x".toList = c' ++ '/' :: "x".toList := rfl
    rw [this, Posix.splitPath_append_sep]
    rfl
  have hne : (c' ++ "/x/y.txt".toList).isEmpty = false := by
    cases c' <;> rfl
  have hnex : (c' ++ "/x".toList).isEmpty = false := by
    cases c' <;> rfl
  have hX1 : ¬ ("x".toList = [] ∨ "x".toList = ".".toList) := by decide
  have hX2 : ¬ ("x".toList = "..".toList) := by decide
  have hY1 : ¬ ("y.txt".toList = [] ∨ "y.txt".toList = ".".toList) := by decide
  have hY2 : ¬ ("y.txt".toList = "..".toList) := by decide
  -- fsCreate
  have hres0 : Posix.resolve r (c' ++ "/x/y.txt".toList) = none := by
    simp only [Posix.resolve, hne, Bool.false_eq_true, if_false, hsplit]
    rw [Posix.walkFrom_append, hW0]
    simp only [Option.some_bind, Posix.walkFrom, hd0, if_true, hX1, hX2, if_false, hKx]
    rfl
  have hmk : Posix.createDirectories ⟨r, deny⟩ (c' ++ "/x".toList) =
      (some true, ⟨wa, deny⟩) := by
    simp only [Posix.createDirectories, hnex, Bool.false_eq_true, if_false, hsplitx]
    rw [Posix.mkdirsFrom_append_of_walk deny r _ _ _ _ _ hW0]
    simp only [Posix.mkdirsFrom, hd0, if_true, hX1, hX2, if_false, hKx, Option.isSome_none,
      Bool.false_eq_true, hw, hw1, hx1]
  have hcf : Posix.createFile ⟨wa, deny⟩ (c' ++ "/x/y.txt".toList) = (true, ⟨wb, deny⟩) := by
    have hdl : (Posix.splitPath c' ++ ["x".toList, "y.txt".toList]).dropLast =
        Posix.splitPath c' ++ ["x".toList] := by
      rw [show Posix.splitPath c' ++ ["x".toList, "y.txt".toList] =
        (Posix.splitPath c' ++ ["x".toList]) ++ ["y.txt".toList] by simp]
      exact List.dropLast_concat
    have hgl : (Posix.splitPath c' ++ ["x".toList, "y.txt".toList]).getLast? =
        some "y.txt".toList := by
      simp
    have hwalk : Posix.walkFrom wa [] (Posix.splitPath c' ++ ["x".toList]) =
        some (loc ++ ["x".toList]) := by
      rw [Posix.walkFrom_append, hW1]
      simp only [Option.some_bind, Posix.walkFrom, hd1, if_true, hX1, hX2, if_false, hx1,
        Option.isSome_some]
    simp only [Posix.createFile, hne, Bool.false_eq_true, if_false, hsplit, hdl, hgl, hwalk,
      hx1, hKy, hwx, hw2]
    simp [Posix.creatable]
  have hcreate : fsCreate Posix.fileSystem "x/y.txt".toList false ⟨⟨r, deny⟩, c⟩ =
      (Outcome.ok, ⟨⟨wb, deny⟩, c⟩) := by
    have hpe : Posix.pathExists ⟨r, deny⟩ (c' ++ "/x/y.txt".toList) = false := by
      unfold Posix.pathExists
      rw [hres0]
      rfl
    simp only [fsCreate, htarget, Posix.fileSystem, hpe, Bool.false_eq_true, if_false,
      Posix.parentPath_xy, hnex, Bool.not_false, if_true, hmk, hcf]
  -- fsDelete
  have hres2 : Posix.resolve wb (c' ++ "/x/y.txt".toList) =
      some (loc ++ ["x".toList] ++ ["y.txt".toList]) := by
    simp only [Posix.resolve, hne, Bool.false_eq_true, if_false, hsplit]
    rw [Posix.walkFrom_append, hW2]
    simp only [Option.some_bind, Posix.walkFrom, hd2, if_true, hX1, hX2, if_false, hx2,
      Option.isSome_some, hY1, hY2, hy2]
  have hdelete : fsDelete Posix.fileSystem "x/y.txt".toList ⟨⟨wb, deny⟩, c⟩ =
      (Outcome.ok, ⟨⟨wa, deny⟩, c⟩) := by
    have hpe : Posix.pathExists ⟨wb, deny⟩ (c' ++ "/x/y.txt".toList) = true := by
      unfold Posix.pathExists
      rw [hres2]
      rfl
    have hcan : Posix.canonical ⟨wb, deny⟩ (c' ++ "/x/y.txt".toList) =
        some (Posix.render (loc ++ ["x".toList] ++ ["y.txt".toList])) := by
      unfold Posix.canonical
      rw [hres2]
      rfl
    have hcanc : Posix.canonical ⟨wb, deny⟩ c = some (Posix.render loc) := by
      unfold Posix.canonical
      rw [hR2]
      rfl
    have hneq : Posix.render (loc ++ ["x".toList] ++ ["y.txt".toList]) ≠ Posix.render loc := by
      rw [List.append_assoc]
      exact Posix.render_append_ne loc _ _
    have hisd : Posix.isDirectory ⟨wb, deny⟩ (c' ++ "/x/y.txt".toList) = false := by
      unfold Posix.isDirectory
      rw [hres2]
      simp only [hy2]
      decide
    have hrm : Posix.remove ⟨wb, deny⟩ (c' ++ "/x/y.txt".toList) = (true, ⟨wa, deny⟩) := by
      have hgl : (loc ++ ["x".toList] ++ ["y.txt".toList]).getLast? = some "y.txt".toList := by
        simp
      have hdl : (loc ++ ["x".toList] ++ ["y.txt".toList]).dropLast = loc ++ ["x".toList] :=
        List.dropLast_concat
      simp only [Posix.remove, hres2, hgl, hN2y, hdl, hwx, if_false, hback]
    simp only [fsDelete, htarget, getCurrentDirectory, Posix.fileSystem, hpe, Bool.not_true,
      Bool.false_eq_true, if_false, hcan, hcanc, Option.some.injEq, hneq, hisd, hrm]
  refine ⟨⟨wb, deny⟩, ⟨wa, deny⟩, hcreate, ?_, hdelete, hN1x, ?_, rfl⟩
  · rw [show loc ++ ["x".toList, "y.txt".toList] = loc ++ ["x".toList] ++ ["y.txt".toList] by
      simp]
    exact hy2
  · intro p hp
    exact (hK1 p).trans (if_neg hp)

/-- Witness of the amended C10: at `/home/u` of the sample state, a writable directory that
has no entry `x`. -/
theorem create_then_delete_witness :
    ∃ w1 w2,
      fsCreate Posix.fileSystem "x/y.txt".toList false ⟨sampleWorld, "/home/u".toList⟩ =
        (Outcome.ok, ⟨w1, "/home/u".toList⟩) ∧
      Posix.kindAt w1.root (["home".toList, "u".toList] ++ ["x".toList, "y.txt".toList]) =
        some Kind.file ∧
      fsDelete Posix.fileSystem "x/y.txt".toList ⟨w1, "/home/u".toList⟩ =
        (Outcome.ok, ⟨w2, "/home/u".toList⟩) ∧
      Posix.nodeAt (Posix.rootNode w2.root) (["home".toList, "u".toList] ++ ["x".toList]) =
        some (Node.dir true Forest.nil) ∧
      (∀ p, p ≠ ["home".toList, "u".toList] ++ ["x".toList] →
        Posix.kindAt w2.root p = Posix.kindAt sampleWorld.root p) ∧
      w2 = ⟨sampleWorld.root.modifyAt (Forest.addDir "x".toList true Forest.nil)
        ["home".toList, "u".toList], sampleWorld.unwritable⟩ :=
  create_then_delete_leaves_empty_parent sampleWorld "/home/u".toList
    ["home".toList, "u".toList] true
    (.file "a.txt".toList (.dir "docs".toList true .nil .nil))
    (by decide) (by decide) (by decide) (by decide) (by decide)

/-! ## C14 and C15: main.cpp -/

theorem takeWhile_append_stop {α : Type} (p : α → Bool) (l : List α) (x : α) (r : List α)
    (hl : ∀ a ∈ l, p a = true) (hx : p x = false) :
    (l ++ x :: r).takeWhile p = l ∧ (l ++ x :: r).dropWhile p = x :: r := by
  induction l with
  | nil => simp [List.takeWhile, List.dropWhile, hx]
  | cons a t ih =>
    have ha : p a = true := hl a (List.mem_cons_self _ _)
    have ht := ih (fun b hb => hl b (List.mem_cons_of_mem _ hb))
    simp [List.takeWhile, List.dropWhile, ha, ht.1, ht.2]

/-- C14 (the code at inputs of the claim): when `cd` is followed at once by a newline and
the next line is `line` (not blank: it starts with a character that is not whitespace),
the iteration calls `fsCd(line)`: the next line is consumed as the path, and the stream
is left after it. -/
theorem cd_then_newline_reads_next_line (c : Char) (t rest : Str)
    (hc : isSpace c = false) (hline : '\n' ∉ c :: t) :
    mainIteration (mainStart ("cd\n".toList ++ (c :: t) ++ '\n' :: rest)) =
      some { cin := { buf := rest, eofbit := false, failbit := false }
             command := "cd".toList, arg1 := [], arg2 := []
             calls := [Call.fsCd (c :: t)] } := by
  have hword : readWord (mainStart ("cd\n".toList ++ (c :: t) ++ '\n' :: rest)).cin [] =
      ("cd".toList, (⟨'\n' :: ((c :: t) ++ '\n' :: rest), false, false⟩ : IStream)) := by
    simp [readWord, mainStart, IStream.good, List.dropWhile, List.takeWhile, isSpace]
  have hws : ws (⟨'\n' :: ((c :: t) ++ '\n' :: rest), false, false⟩ : IStream) =
      (⟨(c :: t) ++ '\n' :: rest, false, false⟩ : IStream) := by
    have h1 : isSpace '\n' = true := by decide
    simp [ws, IStream.good, List.dropWhile, h1, hc]
  have hsplit := takeWhile_append_stop (fun x : Char => x != '\n') (c :: t) '\n' rest
    (fun a ha => by
      simp only [bne_iff_ne, ne_eq]
      intro h
      exact hline (h ▸ ha))
    (by simp)
  have hget : getline '\n' (⟨(c :: t) ++ '\n' :: rest, false, false⟩ : IStream) [] =
      (c :: t, (⟨rest, false, false⟩ : IStream)) := by
    unfold getline
    simp only [IStream.good, Bool.not_false, Bool.and_self, Bool.not_true, Bool.false_eq_true,
      if_false]
    rw [hsplit.1, hsplit.2]
  unfold mainIteration
  have hcmd : (mainStart ("cd\n".toList ++ (c :: t) ++ '\n' :: rest)).command = [] := rfl
  rw [hcmd, hword]
  simp only
  rw [if_neg (by decide), if_neg (by decide), if_pos trivial, hws, hget]
  simp [mainStart]

/-- Evaluation of C14 at concrete inputs: on `cd`, newline, `help`, newline, `exit` the
loop makes the single call `fsCd("help")` (no `fsCd("~")`, no `displayHelp`); with an
argument on the line the next line is a command; `fsCd("~")` is called when the input ends
after `cd`. -/
theorem cd_then_newline_witness :
    mainIteration (mainStart "cd\nhelp\nexit\n".toList) =
      some { cin := { buf := "exit\n".toList, eofbit := false, failbit := false }
             command := "cd".toList, arg1 := [], arg2 := []
             calls := [Call.fsCd "help".toList] } ∧
    mainLoop 3 (mainStart "cd\nhelp\nexit\n".toList) = some [Call.fsCd "help".toList] ∧
    mainLoop 3 (mainStart "cd /tmp\nhelp\nexit\n".toList) =
      some [Call.fsCd "/tmp".toList, Call.displayHelp] ∧
    (mainIteration (mainStart "cd\n".toList)).map MainState.calls =
      some [Call.fsCd "~".toList] :=
  ⟨cd_then_newline_reads_next_line 'h' "elp".toList "exit\n".toList (by decide) (by decide),
    by decide, by decide, by decide⟩

/-- C15 (the code against the claim): the two forms of the prompt are as stated, with 40
characters of path in the long form; but a last component of more than 37 characters is cut:
for `/srv/a_directory_with_a_name_longer_than_forty_characters` the prompt is
`...h_a_name_longer_than_forty_characters> `, which does not contain the directory name. -/
theorem displayPrompt_cuts_long_last_component :
    (∀ c : Str, c.length ≤ 40 → displayPrompt c = c ++ "> ".toList) ∧
    (∀ c : Str, 40 < c.length →
      displayPrompt c = "...".toList ++ c.drop (c.length - 37) ++ "> ".toList ∧
      ("...".toList ++ c.drop (c.length - 37)).length = 40) ∧
    displayPrompt "/srv/a_directory_with_a_name_longer_than_forty_characters".toList =
      "...h_a_name_longer_than_forty_characters> ".toList ∧
    filename "/srv/a_directory_with_a_name_longer_than_forty_characters".toList =
      "a_directory_with_a_name_longer_than_forty_characters".toList ∧
    ¬ (filename "/srv/a_directory_with_a_name_longer_than_forty_characters".toList <:+:
      displayPrompt "/srv/a_directory_with_a_name_longer_than_forty_characters".toList) := by
  refine ⟨?_, ?_, by decide, by decide, ?_⟩
  · intro c hc
    unfold displayPrompt
    simp only
    rw [if_neg (by omega)]
  · intro c hc
    unfold displayPrompt
    simp only
    rw [if_pos (by omega)]
    refine ⟨rfl, ?_⟩
    rw [List.length_append, List.length_drop]
    have : "...".toList.length = 3 := by decide
    omega
  · intro h
    have hlen := h.length_le
    revert hlen
    decide

/-! ## The lines of a walk -/

theorem displayEntries_out (d : Str) (F : Forest) (st : WalkState) :
    (displayEntries d F st).out = st.out ++ (scanEntries d F).map itemLine := by
  induction F generalizing st with
  | nil => simp [displayEntries, scanEntries]
  | file name rest ih =>
    cases h : shouldSkipPath (pathAppend d name)
    · simp only [displayEntries, scanEntries, h, Bool.false_eq_true, if_false, ih]
      simp [itemLine]
    · simp only [displayEntries, scanEntries, h, if_true]; exact ih st
  | dir name en kids rest _ ih =>
    cases h : shouldSkipPath (pathAppend d name)
    · simp only [displayEntries, scanEntries, h, Bool.false_eq_true, if_false, ih]
      simp [itemLine]
    · simp only [displayEntries, scanEntries, h, if_true]; exact ih st

theorem searchEntries_out (term d : Str) (F : Forest) (st : WalkState) :
    (searchEntries term d F st).out =
      st.out ++ ((scanEntries d F).filter (matchesEntry term)).map matchedLine := by
  induction F generalizing st with
  | nil => simp [searchEntries, scanEntries]
  | file name rest ih =>
    cases h : shouldSkipPath (pathAppend d name)
    · simp only [searchEntries, scanEntries, h, Bool.false_eq_true, if_false, ih]
      cases hm : matchesSearch (filename (pathAppend d name)) term <;>
        simp [matchesEntry, matchedLine, hm, List.filter_cons]
    · simp only [searchEntries, scanEntries, h, if_true]; exact ih st
  | dir name en kids rest _ ih =>
    cases h : shouldSkipPath (pathAppend d name)
    · simp only [searchEntries, scanEntries, h, Bool.false_eq_true, if_false, ih]
      cases hm : matchesSearch (filename (pathAppend d name)) term <;>
        simp [matchesEntry, matchedLine, hm, List.filter_cons]
    · simp only [searchEntries, scanEntries, h, if_true]; exact ih st

theorem searchLoop_out (term : Str) (fuel : Nat) :
    ∀ st st', searchLoop term fuel st = some st' →
      st'.out = st.out ++ ((visitsOf st.stack).filter (matchesEntry term)).map matchedLine := by
  induction fuel with
  | zero => intro st st' h; simp [searchLoop] at h
  | succ fuel ih =>
    intro st st' h
    unfold searchLoop at h
    cases hs : st.stack with
    | nil =>
      rw [hs] at h
      simp only [Option.some.injEq] at h
      subst h
      simp [visitsOf]
    | cons top rest =>
      rw [hs] at h
      simp only at h
      cases hk : shouldSkipPath top.path
      · simp only [hk, Bool.false_eq_true, if_false] at h
        have h1 := ih _ _ h
        obtain ⟨_, e2, _⟩ := searchEntries_spec term top.path
          (listing top.enumerable top.kids) { st with stack := rest }
        rw [h1, searchEntries_out, e2, visitsOf_append, visitsOf_reverse_pushedDirs]
        simp [visitsOf, expand_eq, hk]
      · simp only [hk, if_true] at h
        have h1 := ih _ _ h
        rw [h1]
        simp [visitsOf, expand, hk]

theorem displayLoop_out (fuel : Nat) :
    ∀ st st', displayLoop fuel st = some st' →
      st'.out.filter Line.isItem =
        st.out.filter Line.isItem ++ (visitsOf st.stack).map itemLine ∧
      ∀ l ∈ st'.out, l ∈ st.out ∨ l.isItem = true ∨
        ∃ p, l = Line.dirHeader p ∧ shouldSkipPath p = false := by
  induction fuel with
  | zero => intro st st' h; simp [displayLoop] at h
  | succ fuel ih =>
    intro st st' h
    unfold displayLoop at h
    cases hs : st.stack with
    | nil =>
      rw [hs] at h
      simp only [Option.some.injEq] at h
      subst h
      exact ⟨by simp [visitsOf], fun l hl => Or.inl hl⟩
    | cons top rest =>
      rw [hs] at h
      simp only at h
      cases hk : shouldSkipPath top.path
      · simp only [hk, Bool.false_eq_true, if_false] at h
        obtain ⟨h1, h2⟩ := ih _ _ h
        obtain ⟨_, e2, _⟩ := displayEntries_spec top.path
          (listing top.enumerable top.kids)
          { st with out := st.out ++ [Line.dirHeader top.path], stack := rest }
        have hitems : ∀ l : List Entry, (l.map itemLine).filter Line.isItem = l.map itemLine := by
          intro l
          induction l with
          | nil => rfl
          | cons a t iht => simp [List.filter_cons, itemLine, Line.isItem, iht]
        refine ⟨?_, ?_⟩
        · rw [h1, displayEntries_out, e2, visitsOf_append, visitsOf_reverse_pushedDirs]
          simp only [List.filter_append, hitems, visitsOf, expand_eq, hk, Bool.false_eq_true,
            if_false, List.map_append, List.append_assoc]
          simp [List.filter_cons, Line.isItem]
        · intro l hl
          rcases h2 l hl with h3 | h3 | h3
          · rw [displayEntries_out] at h3
            simp only [List.mem_append, List.mem_singleton, List.mem_map] at h3
            rcases h3 with (h3 | h3) | ⟨e, _, rfl⟩
            · exact Or.inl h3
            · exact Or.inr (Or.inr ⟨top.path, h3, hk⟩)
            · exact Or.inr (Or.inl rfl)
          · exact Or.inr (Or.inl h3)
          · exact Or.inr (Or.inr h3)
      · simp only [hk, if_true] at h
        obtain ⟨h1, h2⟩ := ih _ _ h
        refine ⟨?_, h2⟩
        rw [h1]
        simp [visitsOf, expand, hk]

theorem unskipped_of_mem_expand {d : Str} {en : Bool} {F : Forest} {e : Entry}
    (he : e ∈ expand d en F) : shouldSkipPath e.path = false := by
  obtain ⟨t, ht, hc⟩ := trail_of_mem_expand he
  exact hc _ ht.last_mem

/-! ## C11 and C12 -/

/-- What the two walks from a root directory produce, for enough fuel: the final states,
the entries met, the counters and the lines. -/
theorem walks_of_directory (processDir D term : Str) (en : Bool) (kids : Forest)
    (hterm : term ≠ []) (fuel : Nat) (hfuel : kids.dirCount + 1 < fuel) :
    ∃ sd ss, fsDisplay fuel processDir D (some (Node.dir en kids)) = some sd ∧
      fsSearch fuel processDir D term (some (Node.dir en kids)) = some ss ∧
      sd.visited = expand D en kids ∧ ss.visited = expand D en kids ∧
      sd.count = wrapInt (expand D en kids).length ∧
      ss.count = wrapInt ((expand D en kids).countP (matchesEntry term)) ∧
      sd.out.filter Line.isItem = (expand D en kids).map itemLine ∧
      (∀ l ∈ sd.out, l = Line.displaying D ∨ l = Line.total sd.count ∨ l.isItem = true ∨
        ∃ p, l = Line.dirHeader p ∧ shouldSkipPath p = false) ∧
      ss.out = Line.searching term D ::
        (((expand D en kids).filter (matchesEntry term)).map matchedLine ++
          [Line.found ss.count term]) ∧
      sd.out.getLast? = some (Line.total sd.count) := by
  obtain ⟨sd, hd1, _, hd3, hd4⟩ := displayLoop_spec fuel
    ⟨[Line.displaying D], 0, [⟨D, en, kids⟩], []⟩ (by simp only [fuelFor]; omega)
  obtain ⟨ss, hs1, _, hs3, hs4⟩ := searchLoop_spec term fuel
    ⟨[Line.searching term D], 0, [⟨D, en, kids⟩], []⟩ (by simp only [fuelFor]; omega)
  obtain ⟨ho1, ho2⟩ := displayLoop_out fuel _ _ hd1
  have hso := searchLoop_out term fuel _ _ hs1
  simp only [visitsOf, List.nil_append, List.append_nil, Nat.zero_add,
    countAfter_zero_eq] at hd3 hs3 hd4 hs4 ho1 hso
  have hne : term.isEmpty = false := by
    cases term with
    | nil => exact absurd rfl hterm
    | cons _ _ => rfl
  refine ⟨{ sd with out := sd.out ++ [Line.total sd.count] },
    { ss with out := ss.out ++ [Line.found ss.count term] }, ?_, ?_, hd3, hs3, hd4, ?_, ?_, ?_,
    ?_, ?_⟩
  · simp only [fsDisplay, hd1]
  · simp only [fsSearch, hne, Bool.false_eq_true, if_false, hs1]
  · exact hs4
  · simp only [List.filter_append, ho1]
    simp [List.filter_cons, Line.isItem]
  · intro l hl
    simp only [List.mem_append, List.mem_singleton] at hl
    rcases hl with hl | hl
    · rcases ho2 l hl with h | h | h
      · simp only [List.mem_singleton] at h
        exact Or.inl h
      · exact Or.inr (Or.inr (Or.inl h))
      · exact Or.inr (Or.inr (Or.inr h))
    · exact Or.inr (Or.inl hl)
  · simp only [hso]
    simp
  · simp

/-- C11 (the code against the claim): a root that is a regular file is printed by
`fsDisplay`, and by `fsSearch` when its name matches, with no skip test: for the file
`pagefile.sys` in `/data` the line `[FILE] /data/pagefile.sys` is written although
`shouldSkipPath` is true of the path. For a root directory the claim holds: every header
line is that of a path that is not skipped, the entry lines of `fsDisplay` are those of the
entries met, the match lines of `fsSearch` those of entries met, and no entry met is
skipped. -/
theorem root_file_is_printed_without_skip_test :
    (∀ (fuel : Nat) (processDir directory : Str),
      fsDisplay fuel processDir directory (some Node.file) =
        some ⟨[Line.displaying directory, Line.rootFile (absolute processDir directory)],
          0, [], []⟩) ∧
    fsDisplay 1 "/data".toList "pagefile.sys".toList (some Node.file) =
      some ⟨[Line.displaying "pagefile.sys".toList,
        Line.rootFile "/data/pagefile.sys".toList], 0, [], []⟩ ∧
    fsSearch 1 "/data".toList "pagefile.sys".toList "page".toList (some Node.file) =
      some ⟨[Line.searching "page".toList "pagefile.sys".toList,
        Line.rootFile "/data/pagefile.sys".toList], 0, [], []⟩ ∧
    shouldSkipPath "pagefile.sys".toList = true ∧
    shouldSkipPath "/data/pagefile.sys".toList = true ∧
    (∀ (processDir D term : Str) (en : Bool) (kids : Forest) (fuel : Nat), term ≠ [] →
      kids.dirCount + 1 < fuel →
      ∃ sd ss, fsDisplay fuel processDir D (some (Node.dir en kids)) = some sd ∧
        fsSearch fuel processDir D term (some (Node.dir en kids)) = some ss ∧
        (∀ l ∈ sd.out, l = Line.displaying D ∨ l = Line.total sd.count ∨ l.isItem = true ∨
          ∃ p, l = Line.dirHeader p ∧ shouldSkipPath p = false) ∧
        sd.out.filter Line.isItem = sd.visited.map itemLine ∧
        (∀ e ∈ sd.visited, shouldSkipPath e.path = false) ∧
        (∀ l ∈ ss.out, l = Line.searching term D ∨ l = Line.found ss.count term ∨
          ∃ e, l = matchedLine e ∧ shouldSkipPath e.path = false)) := by
  refine ⟨fun _ _ _ => rfl, by decide, by decide, by decide, by decide, ?_⟩
  intro processDir D term en kids fuel hterm hfuel
  obtain ⟨sd, ss, h1, h2, h3, _, _, _, h7, h8, h9, _⟩ :=
    walks_of_directory processDir D term en kids hterm fuel hfuel
  refine ⟨sd, ss, h1, h2, h8, by rw [h7, h3], ?_, ?_⟩
  · intro e he
    rw [h3] at he
    exact unskipped_of_mem_expand he
  · intro l hl
    rw [h9] at hl
    simp only [List.mem_cons, List.mem_append, List.mem_map, List.mem_filter,
      List.mem_singleton, List.not_mem_nil, or_false] at hl
    rcases hl with hl | ⟨e, ⟨he, _⟩, rfl⟩ | hl
    · exact Or.inl hl
    · exact Or.inr (Or.inr ⟨e, rfl, unskipped_of_mem_expand he⟩)
    · exact Or.inr (Or.inl hl)

/-- C12, amended: for any tree and root directory whose walk meets fewer than 2^31
entries, with enough fuel: the number in the last line of `fsDisplay`, "Total items
found: N", is the number of entries met by the walk, which is also the number of entry
lines written; the number in the last line of `fsSearch`, "Found N matches", is the number
of those same entries whose file name matches the term, which is also the number of match
lines written; so the second number is at most the first. -/
theorem reported_counts_are_visit_counts (processDir D term : Str) (en : Bool)
    (kids : Forest) (hterm : term ≠ []) (fuel : Nat) (hfuel : kids.dirCount + 1 < fuel)
    (hbound : (expand D en kids).length < 2147483648) :
    ∃ (sd ss : WalkState) (nd ns : Nat),
      fsDisplay fuel processDir D (some (Node.dir en kids)) = some sd ∧
      fsSearch fuel processDir D term (some (Node.dir en kids)) = some ss ∧
      sd.out.getLast? = some (Line.total (nd : Int)) ∧
      ss.out.getLast? = some (Line.found (ns : Int) term) ∧
      ss.visited = sd.visited ∧
      sd.visited = expand D en kids ∧
      nd = sd.visited.length ∧
      nd = (sd.out.filter Line.isItem).length ∧
      ns = sd.visited.countP (fun e => matchesSearch (filename e.path) term) ∧
      ns = (ss.out.filter Line.isMatched).length ∧
      ns ≤ nd := by
  obtain ⟨sd, ss, h1, h2, h3, h4, h5, h6, h7, _, h9, h10⟩ :=
    walks_of_directory processDir D term en kids hterm fuel hfuel
  have hmatched : ∀ l : List Entry,
      ((l.map matchedLine).filter Line.isMatched).length = l.length := by
    intro l
    induction l with
    | nil => rfl
    | cons a t iht => simp [List.filter_cons, matchedLine, Line.isMatched, iht]
  have hle : (expand D en kids).countP (matchesEntry term) ≤ (expand D en kids).length :=
    List.countP_le_length _
  rw [wrapInt_of_lt hbound] at h5
  rw [wrapInt_of_lt (Nat.lt_of_le_of_lt hle hbound)] at h6
  refine ⟨sd, ss, (expand D en kids).length, (expand D en kids).countP (matchesEntry term),
    h1, h2, ?_, ?_, by rw [h3, h4], h3, by rw [h3], ?_, ?_, ?_, hle⟩
  · rw [h10, h5]
  · rw [h9, ← List.cons_append,
      List.getLast?_append_of_ne_nil _ (List.cons_ne_nil _ _), h6]
    rfl
  · rw [h7]
    simp
  · rw [h3]
    rfl
  · rw [h9]
    simp only [List.filter_cons, Line.isMatched, Bool.false_eq_true, if_false,
      List.filter_append, List.filter_nil, List.append_nil, hmatched]
    exact List.countP_eq_length_filter _ _

/-- Witness of the amended C12 on the sample tree rooted at `/r`: three entries are met,
two of them match `txt`. -/
theorem reported_counts_witness :
    ∃ (sd ss : WalkState) (nd ns : Nat),
      fsDisplay 4 "/".toList "/r".toList (some (Node.dir true sampleTree)) = some sd ∧
      fsSearch 4 "/".toList "/r".toList "txt".toList (some (Node.dir true sampleTree)) =
        some ss ∧
      sd.out.getLast? = some (Line.total (nd : Int)) ∧
      ss.out.getLast? = some (Line.found (ns : Int) "txt".toList) ∧
      ss.visited = sd.visited ∧
      sd.visited = expand "/r".toList true sampleTree ∧
      nd = sd.visited.length ∧
      nd = (sd.out.filter Line.isItem).length ∧
      ns = sd.visited.countP (fun e => matchesSearch (filename e.path) "txt".toList) ∧
      ns = (ss.out.filter Line.isMatched).length ∧
      ns ≤ nd :=
  reported_counts_are_visit_counts "/".toList "/r".toList "txt".toList true sampleTree
    (by decide) 4 (by decide) (by decide)

/-! ## C13: directories whose enumeration fails -/

theorem emptied_listing (en : Bool) (kids : Forest) :
    (if en then emptied kids else Forest.nil) = emptied (listing en kids) := by
  cases en <;> simp [listing, emptied]

theorem displayEntries_emptied (d : Str) (F : Forest) (st : WalkState) :
    displayEntries d (emptied F) (emptiedState st) = emptiedState (displayEntries d F st) := by
  induction F generalizing st with
  | nil => simp [displayEntries, emptied]
  | file name rest ih =>
    cases h : shouldSkipPath (pathAppend d name)
    · simp only [displayEntries, emptied, h, Bool.false_eq_true, if_false]
      rw [← ih]
      rfl
    · simp only [displayEntries, emptied, h, if_true]
      exact ih st
  | dir name en kids rest _ ih =>
    cases h : shouldSkipPath (pathAppend d name)
    · simp only [displayEntries, emptied, h, Bool.false_eq_true, if_false]
      rw [← ih, emptied_listing]
      rfl
    · simp only [displayEntries, emptied, h, if_true]
      exact ih st

theorem searchEntries_emptied (term d : Str) (F : Forest) (st : WalkState) :
    searchEntries term d (emptied F) (emptiedState st) =
      emptiedState (searchEntries term d F st) := by
  induction F generalizing st with
  | nil => simp [searchEntries, emptied]
  | file name rest ih =>
    cases h : shouldSkipPath (pathAppend d name)
    · simp only [searchEntries, emptied, h, Bool.false_eq_true, if_false]
      rw [← ih]
      cases matchesSearch (filename (pathAppend d name)) term <;> rfl
    · simp only [searchEntries, emptied, h, if_true]
      exact ih st
  | dir name en kids rest _ ih =>
    cases h : shouldSkipPath (pathAppend d name)
    · simp only [searchEntries, emptied, h, Bool.false_eq_true, if_false]
      rw [← ih, emptied_listing]
      cases matchesSearch (filename (pathAppend d name)) term <;> rfl
    · simp only [searchEntries, emptied, h, if_true]
      exact ih st

theorem displayLoop_emptied (fuel : Nat) :
    ∀ st, displayLoop fuel (emptiedState st) = (displayLoop fuel st).map emptiedState := by
  induction fuel with
  | zero => intro st; rfl
  | succ fuel ih =>
    intro st
    unfold displayLoop
    cases hs : st.stack with
    | nil => simp [emptiedState, hs]
    | cons top rest =>
      have hE : (emptiedState st).stack = emptiedPending top :: rest.map emptiedPending := by
        simp [emptiedState, hs]
      rw [hE]
      simp only [emptiedPending]
      cases hk : shouldSkipPath top.path
      · simp only [Bool.false_eq_true, if_false, listing, if_true]
        rw [← ih]
        have := displayEntries_emptied top.path (listing top.enumerable top.kids)
          { st with out := st.out ++ [Line.dirHeader top.path], stack := rest }
        exact congrArg (displayLoop fuel) this
      · simp only [if_true]
        rw [← ih]
        rfl

theorem searchLoop_emptied (term : Str) (fuel : Nat) :
    ∀ st, searchLoop term fuel (emptiedState st) =
      (searchLoop term fuel st).map emptiedState := by
  induction fuel with
  | zero => intro st; rfl
  | succ fuel ih =>
    intro st
    unfold searchLoop
    cases hs : st.stack with
    | nil => simp [emptiedState, hs]
    | cons top rest =>
      have hE : (emptiedState st).stack = emptiedPending top :: rest.map emptiedPending := by
        simp [emptiedState, hs]
      rw [hE]
      simp only [emptiedPending]
      cases hk : shouldSkipPath top.path
      · simp only [Bool.false_eq_true, if_false, listing, if_true]
        rw [← ih]
        have := searchEntries_emptied term top.path (listing top.enumerable top.kids)
          { st with stack := rest }
        exact congrArg (searchLoop term fuel) this
      · simp only [if_true]
        rw [← ih]
        rfl

theorem emptiedState_of_stack_nil {st : WalkState} (h : st.stack = []) :
    emptiedState st = st := by
  cases st
  simp only at h
  subst h
  rfl

theorem OpenTrail.widen {d : Str} {F G : Forest} {t : List Str} {q : Str}
    (hsub : ∀ x, x ∈ F.entries → x ∈ G.entries) (h : OpenTrail d F t q) :
    OpenTrail d G t q := by
  cases h with
  | child hm => exact OpenTrail.child (hsub _ hm)
  | deeper hm ht => exact OpenTrail.deeper (hsub _ hm) ht

theorem OpenTrail.toTrail {d : Str} {F : Forest} {t : List Str} {q : Str}
    (h : OpenTrail d F t q) : Trail d F t q := by
  induction h with
  | child hm => exact Trail.child hm
  | deeper hm _ ih => exact Trail.deeper hm ih

theorem open_trail_of_mem_below (F : Forest) :
    ∀ (d : Str) (e : Entry), shouldSkipPath d = false → e ∈ below d F →
      ∃ t, OpenTrail d F t e.path ∧ ∀ a ∈ t, shouldSkipPath a = false := by
  induction F with
  | nil => intro d e _ he; simp [below] at he
  | file name rest ih =>
    intro d e hd he
    simp only [below] at he
    obtain ⟨t, ht, hc⟩ := ih d e hd he
    exact ⟨t,
      ht.widen (fun x hx => by simp only [Forest.entries]; exact List.mem_cons_of_mem _ hx), hc⟩
  | dir name en kids rest ihk ihr =>
    intro d e hd he
    simp only [below, List.mem_append] at he
    rcases he with he | he
    · obtain ⟨t, ht, hc⟩ := ihr d e hd he
      exact ⟨t,
        ht.widen (fun x hx => by simp only [Forest.entries]; exact List.mem_cons_of_mem _ hx), hc⟩
    · have hhead : (name, Node.dir en kids) ∈ (Forest.dir name en kids rest).entries := by
        simp [Forest.entries]
      cases hs : shouldSkipPath (pathAppend d name)
      · cases en
        · simp [hs] at he
        · simp only [hs, Bool.false_eq_true, if_false, if_true, List.mem_append] at he
          rcases he with he | he
          · obtain ⟨n, node, hm, rfl, hsk⟩ := mem_scanEntries.mp he
            refine ⟨[d, pathAppend d name, pathAppend (pathAppend d name) n],
              OpenTrail.deeper hhead (OpenTrail.child hm), ?_⟩
            intro a ha
            simp only [List.mem_cons, List.mem_singleton, List.not_mem_nil, or_false] at ha
            rcases ha with rfl | rfl | rfl
            · exact hd
            · exact hs
            · exact hsk
          · obtain ⟨t, ht, hc⟩ := ihk (pathAppend d name) e hs he
            refine ⟨d :: t, OpenTrail.deeper hhead ht, ?_⟩
            intro a ha
            rcases List.mem_cons.mp ha with rfl | ha
            · exact hd
            · exact hc a ha
      · simp [hs] at he

theorem mem_expand_iff_open_trail (D : Str) (kids : Forest) (q : Str) :
    q ∈ (expand D true kids).map Entry.path ↔
      ∃ t, OpenTrail D kids t q ∧ ∀ a ∈ t, shouldSkipPath a = false := by
  constructor
  · intro hq
    obtain ⟨e, he, rfl⟩ := List.mem_map.mp hq
    unfold expand at he
    cases hd : shouldSkipPath D
    · simp only [hd, Bool.false_eq_true, if_false, if_true, List.mem_append] at he
      rcases he with he | he
      · obtain ⟨n, node, hm, rfl, hsk⟩ := mem_scanEntries.mp he
        refine ⟨[D, pathAppend D n], OpenTrail.child hm, ?_⟩
        intro a ha
        simp only [List.mem_cons, List.mem_singleton, List.not_mem_nil, or_false] at ha
        rcases ha with rfl | rfl
        · exact hd
        · exact hsk
      · exact open_trail_of_mem_below kids D e hd he
    · simp [hd] at he
  · rintro ⟨t, ht, hc⟩
    suffices h : ∃ k, (⟨q, k⟩ : Entry) ∈ expand D true kids by
      obtain ⟨k, hk⟩ := h
      exact List.mem_map.mpr ⟨_, hk, rfl⟩
    induction ht with
    | @child d kids name node hm =>
      have hd : shouldSkipPath d = false := hc d (List.mem_cons_self _ _)
      have hq : shouldSkipPath (pathAppend d name) = false :=
        hc _ (List.mem_cons_of_mem _ (List.mem_cons_self _ _))
      refine ⟨node.kind, ?_⟩
      simp only [expand, hd, Bool.false_eq_true, if_false, if_true, List.mem_append]
      exact Or.inl (mem_scanEntries.mpr ⟨name, node, hm, rfl, hq⟩)
    | @deeper d kids name sub t q hm _ ih =>
      have hd : shouldSkipPath d = false := hc d (List.mem_cons_self _ _)
      obtain ⟨k, hk⟩ := ih (fun a ha => hc a (List.mem_cons_of_mem _ ha))
      refine ⟨k, ?_⟩
      simp only [expand, hd, Bool.false_eq_true, if_false, if_true, List.mem_append]
      exact Or.inr (mem_below.mpr ⟨name, true, sub, hm, hk⟩)

/-- C13: for any tree, any flags telling which directories fail to be enumerated, and
enough fuel: the walks of `fsDisplay` and `fsSearch` end; their results (lines, count,
entries met) are those on the tree in which every directory that fails is an empty
directory; the entries met are those reached by a trail of paths that are not skipped
which enters only directories that can be enumerated, so a directory that fails is met as
an entry of its parent; and the iteration that pops such a directory writes its header (in
`fsDisplay`), meets no entry and pushes nothing. -/
theorem failed_enumeration_acts_as_empty_directory (processDir D term : Str) (en : Bool)
    (kids : Forest) (hterm : term ≠ []) (fuel : Nat) (hfuel : kids.dirCount + 1 < fuel) :
    ∃ sd ss, fsDisplay fuel processDir D (some (Node.dir en kids)) = some sd ∧
      fsSearch fuel processDir D term (some (Node.dir en kids)) = some ss ∧
      fsDisplay fuel processDir D (some (Node.dir true (emptied (listing en kids)))) =
        some sd ∧
      fsSearch fuel processDir D term (some (Node.dir true (emptied (listing en kids)))) =
        some ss ∧
      ss.visited = sd.visited ∧
      (∀ q, q ∈ sd.visited.map Entry.path ↔
        en = true ∧ ∃ t, OpenTrail D kids t q ∧ ∀ a ∈ t, shouldSkipPath a = false) ∧
      (∀ (n : Nat) (st : WalkState) (p : Str) (sub : Forest) (rest : List Pending),
        st.stack = ⟨p, false, sub⟩ :: rest → shouldSkipPath p = false →
        displayLoop (n + 1) st =
          displayLoop n { st with out := st.out ++ [Line.dirHeader p], stack := rest } ∧
        searchLoop term (n + 1) st = searchLoop term n { st with stack := rest }) := by
  obtain ⟨sd, ss, h1, h2, h3, h4, _⟩ :=
    walks_of_directory processDir D term en kids hterm fuel hfuel
  have hne : term.isEmpty = false := by
    cases term with
    | nil => exact absurd rfl hterm
    | cons _ _ => rfl
  refine ⟨sd, ss, h1, h2, ?_, ?_, by rw [h3, h4], ?_, ?_⟩
  · have hsim := displayLoop_emptied fuel ⟨[Line.displaying D], 0, [⟨D, en, kids⟩], []⟩
    simp only [fsDisplay] at h1 ⊢
    cases hl : displayLoop fuel ⟨[Line.displaying D], 0, [⟨D, en, kids⟩], []⟩ with
    | none => rw [hl] at h1; simp at h1
    | some st =>
      rw [hl] at h1 hsim
      obtain ⟨st', hst', hstack, _⟩ := displayLoop_spec fuel
        ⟨[Line.displaying D], 0, [⟨D, en, kids⟩], []⟩ (by simp only [fuelFor]; omega)
      rw [hl] at hst'
      simp only [Option.some.injEq] at hst'
      subst hst'
      have hinit : emptiedState ⟨[Line.displaying D], 0, [⟨D, en, kids⟩], []⟩ =
          ⟨[Line.displaying D], 0, [⟨D, true, emptied (listing en kids)⟩], []⟩ := rfl
      rw [hinit, Option.map_some', emptiedState_of_stack_nil hstack] at hsim
      rw [hsim]
      exact h1
  · have hsim := searchLoop_emptied term fuel
      ⟨[Line.searching term D], 0, [⟨D, en, kids⟩], []⟩
    simp only [fsSearch, hne, Bool.false_eq_true, if_false] at h2 ⊢
    cases hl : searchLoop term fuel ⟨[Line.searching term D], 0, [⟨D, en, kids⟩], []⟩ with
    | none => rw [hl] at h2; simp at h2
    | some st =>
      rw [hl] at h2 hsim
      obtain ⟨st', hst', hstack, _⟩ := searchLoop_spec term fuel
        ⟨[Line.searching term D], 0, [⟨D, en, kids⟩], []⟩ (by simp only [fuelFor]; omega)
      rw [hl] at hst'
      simp only [Option.some.injEq] at hst'
      subst hst'
      have hinit : emptiedState ⟨[Line.searching term D], 0, [⟨D, en, kids⟩], []⟩ =
          ⟨[Line.searching term D], 0, [⟨D, true, emptied (listing en kids)⟩], []⟩ := rfl
      rw [hinit, Option.map_some', emptiedState_of_stack_nil hstack] at hsim
      rw [hsim]
      exact h2
  · intro q
    rw [h3]
    cases en
    · simp [expand]
    · simp only [true_and]
      exact mem_expand_iff_open_trail D kids q
  · intro n st p sub rest hs hp
    constructor
    · conv_lhs => unfold displayLoop
      simp only [hs, hp, Bool.false_eq_true, if_false, listing, displayEntries]
    · conv_lhs => unfold searchLoop
      simp only [hs, hp, Bool.false_eq_true, if_false, listing, searchEntries]

/-- Witness of C13 on a tree rooted at `/r` whose directory `locked` cannot be enumerated:
`locked` is met, the file in it is not. -/
theorem failed_enumeration_witness :
    (∃ sd ss,
      fsDisplay 4 "/".toList "/r".toList (some (Node.dir true sampleLockedTree)) = some sd ∧
      fsSearch 4 "/".toList "/r".toList "c".toList (some (Node.dir true sampleLockedTree)) =
        some ss ∧
      fsDisplay 4 "/".toList "/r".toList
        (some (Node.dir true (emptied (listing true sampleLockedTree)))) = some sd ∧
      fsSearch 4 "/".toList "/r".toList "c".toList
        (some (Node.dir true (emptied (listing true sampleLockedTree)))) = some ss ∧
      ss.visited = sd.visited ∧
      (∀ q, q ∈ sd.visited.map Entry.path ↔
        true = true ∧
          ∃ t, OpenTrail "/r".toList sampleLockedTree t q ∧
            ∀ a ∈ t, shouldSkipPath a = false) ∧
      (∀ (n : Nat) (st : WalkState) (p : Str) (sub : Forest) (rest : List Pending),
        st.stack = ⟨p, false, sub⟩ :: rest → shouldSkipPath p = false →
        displayLoop (n + 1) st =
          displayLoop n { st with out := st.out ++ [Line.dirHeader p], stack := rest } ∧
        searchLoop "c".toList (n + 1) st =
          searchLoop "c".toList n { st with stack := rest })) ∧
    (fsDisplay 4 "/".toList "/r".toList (some (Node.dir true sampleLockedTree))).map
        (fun s => s.visited.map Entry.path) =
      some ["/r/a.txt".toList, "/r/locked".toList, "/r/b".toList, "/r/b/c.TXT".toList] :=
  ⟨failed_enumeration_acts_as_empty_directory "/".toList "/r".toList "c".toList true
      sampleLockedTree (by decide) 4 (by decide),
    by decide⟩

/-! ## The tree with many entries -/

theorem shouldSkipPath_of_plainPath {p : Str} (h : plainPath p) : shouldSkipPath p = false := by
  cases hs : shouldSkipPath p with
  | false => rfl
  | true =>
    exfalso
    unfold shouldSkipPath at hs
    obtain ⟨s, hs1, hs2⟩ := (shouldSkipLoop_iff p SYSTEM_SKIP_PATHS).mp hs
    simp only [SYSTEM_SKIP_PATHS, List.mem_cons, List.mem_singleton, List.not_mem_nil,
      or_false] at hs1
    rcases hs1 with rfl | rfl | rfl | rfl | rfl
    · have h1 := h '$' (hs2.subset (by decide))
      revert h1
      decide
    · have h1 := h 'S' (hs2.subset (by decide))
      revert h1
      decide
    · have h1 := h 'p' (hs2.subset (by decide))
      revert h1
      decide
    · have h1 := h 'h' (hs2.subset (by decide))
      revert h1
      decide
    · have h1 := h 's' (hs2.subset (by decide))
      revert h1
      decide

theorem plainPath_pathAppend {d n : Str} (hd : plainPath d) (hn : plainPath n) :
    plainPath (pathAppend d n) := by
  unfold pathAppend
  split_ifs
  · exact hn
  · intro c hc
    simp only [List.mem_append, List.mem_cons] at hc
    rcases hc with hc | rfl | hc
    · exact hd c hc
    · exact Or.inl rfl
    · exact hn c hc
  · intro c hc
    rw [List.mem_append] at hc
    exact hc.elim (hd c) (hn c)

theorem length_doubling (n : Nat) : ∀ d, plainPath d →
    (scanEntries d (doubling n) ++ below d (doubling n)).length + 2 = 2 ^ (n + 1) := by
  induction n with
  | zero =>
    intro d _
    simp [doubling, scanEntries, below]
  | succ n ih =>
    intro d hd
    have ha : plainPath (pathAppend d "a".toList) :=
      plainPath_pathAppend hd (by unfold plainPath; decide)
    have hb : plainPath (pathAppend d "b".toList) :=
      plainPath_pathAppend hd (by unfold plainPath; decide)
    have sa := shouldSkipPath_of_plainPath ha
    have sb := shouldSkipPath_of_plainPath hb
    have ia := ih _ ha
    have ib := ih _ hb
    simp only [List.length_append] at ia ib
    simp only [doubling, scanEntries, below, sa, sb, Bool.false_eq_true, if_false, if_true,
      List.length_append, List.length_cons, List.length_nil]
    rw [pow_succ]
    omega

theorem length_expand_two_files (F : Forest) :
    (expand "/r".toList true (Forest.file "r".toList (Forest.file "rr".toList F))).length =
      (scanEntries "/r".toList F ++ below "/r".toList F).length + 2 := by
  have s0 : shouldSkipPath "/r".toList = false := by decide
  have s1 : shouldSkipPath (pathAppend "/r".toList "r".toList) = false := by decide
  have s2 : shouldSkipPath (pathAppend "/r".toList "rr".toList) = false := by decide
  simp only [expand, scanEntries, below, s0, s1, s2, Bool.false_eq_true, if_false, if_true,
    List.length_append, List.length_cons]
  omega

/-! ## C10 and C12: where the claims as stated fail -/

/-- C10 as stated fails, in four runs of `fsCreate("x/y.txt", false)` from `/home/u` or
`/home/u/docs`, where no directory `x` exists under the current working directory.
Where `x` is a regular file the call fails. Where the process can enter and read the
current directory but not write to it, the call fails and nothing changes. Where the
process is denied write permission on the directory `x` it creates, the call fails. After
the current directory was deleted (`cd /home/u/docs`, `rm /home/u`), the call and
`fsDelete("x/y.txt")` succeed, and three directories are added: `/home/u`, `/home/u/docs`
and `/home/u/docs/x`. -/
theorem create_then_delete_fails_as_stated :
    (Posix.isDirectory fileXWorld "/home/u/x".toList = false ∧
      fsCreate Posix.fileSystem "x/y.txt".toList false ⟨fileXWorld, "/home/u".toList⟩ =
        (Outcome.fail Err.Exception, ⟨fileXWorld, "/home/u".toList⟩)) ∧
    (Posix.pathExists readOnlyWorld "/home/u/x".toList = false ∧
      fsCd Posix.fileSystem sampleEnv "/home/u".toList ⟨readOnlyWorld, "/".toList⟩ =
        (Outcome.ok, ⟨readOnlyWorld, "/home/u".toList⟩) ∧
      fsCreate Posix.fileSystem "x/y.txt".toList false ⟨readOnlyWorld, "/home/u".toList⟩ =
        (Outcome.fail Err.Exception, ⟨readOnlyWorld, "/home/u".toList⟩)) ∧
    (Posix.pathExists maskedWorld "/home/u/x".toList = false ∧
      (fsCreate Posix.fileSystem "x/y.txt".toList false ⟨maskedWorld, "/home/u".toList⟩).1 =
        Outcome.fail Err.IOError) ∧
    (let s0 := (fsDelete Posix.fileSystem "/home/u".toList
        (fsCd Posix.fileSystem sampleEnv "/home/u/docs".toList ⟨sampleWorld, "/".toList⟩).2).2
     let r1 := fsCreate Posix.fileSystem "x/y.txt".toList false s0
     let r2 := fsDelete Posix.fileSystem "x/y.txt".toList r1.2
     s0.currentWorkingDirectory = "/home/u/docs".toList ∧
       Posix.pathExists s0.world "/home/u/docs/x".toList = false ∧
       r1.1 = Outcome.ok ∧ r2.1 = Outcome.ok ∧
       Posix.kindAt s0.world.root ["home".toList, "u".toList] = none ∧
       Posix.kindAt r2.2.world.root ["home".toList, "u".toList] = some Kind.directory ∧
       Posix.kindAt r2.2.world.root ["home".toList, "u".toList, "docs".toList] =
         some Kind.directory ∧
       Posix.nodeAt (Posix.rootNode r2.2.world.root)
         ["home".toList, "u".toList, "docs".toList, "x".toList] =
         some (Node.dir true Forest.nil)) := by
  decide

/-- C12 as stated fails on the directory `/r` holding two files and a tree of depth 30 in
which every directory holds two links `a` and `b` to the next one: the walk ends, it meets
2147483648 entries, one more than the largest `int`, and the last line of `fsDisplay`
reports the total -2147483648, the value of the `int` counter after that many
increments. -/
theorem reported_total_wraps_around :
    ∃ fuel sd,
      fsDisplay fuel "/".toList "/r".toList (some (Node.dir true overfull)) = some sd ∧
      sd.visited.length = 2147483648 ∧
      sd.out.getLast? = some (Line.total (-2147483648)) := by
  obtain ⟨sd, _, h1, _, h3, _, h5, _, _, _, _, h10⟩ :=
    walks_of_directory "/".toList "/r".toList "a".toList true overfull (by decide)
      (overfull.dirCount + 2) (by omega)
  have hr : plainPath "/r".toList := by unfold plainPath; decide
  have hlen : (expand "/r".toList true overfull).length = 2147483648 := by
    have h := length_doubling 30 _ hr
    have hp : (2 : Nat) ^ (30 + 1) = 2147483648 := by norm_num
    rw [hp] at h
    rw [show overfull = Forest.file "r".toList (Forest.file "rr".toList (doubling 30)) from rfl,
      length_expand_two_files, h]
  have hwrap : wrapInt ((2147483648 : Nat) : Int) = -2147483648 := by decide
  refine ⟨_, sd, h1, by rw [h3, hlen], ?_⟩
  rw [h10, h5, hlen, hwrap]

end Explorer
